import Mathlib

/-!
Verification of the Field Canonicalization & Value Normalization Engine
(`src/formatters/field_formatter.py`, `src/mappers/field_mapper.py`,
`src/parsers/data_parser.py`, `src/unified_field_system.py`,
`src/scripts/validate_field_equivalents.py`).

Shallow embedding conventions:
  * Python strings are embedded as `List Char` (with `String` wrappers at API
    boundaries); all list recursions are structural so every definition
    evaluates in the kernel.
  * Python `float` is embedded as `Rat` (exact decimal arithmetic); every
    decimal literal appearing in the claims is exactly representable, so no
    claim depends on binary rounding.
  * Python `None` is `Option.none` / the `Value.vNone` constructor.
  * Python dicts keyed by strings are association lists in insertion order;
    `dictInsert` reproduces dict assignment (update in place, else append).
-/

namespace PyStr

/-- The whitespace characters removed by Python `str.strip()` (ASCII range). -/
def pyWs (c : Char) : Bool :=
  c = ' ' ∨ c = '\t' ∨ c = '\n' ∨ c = '\r' ∨ c = '\x0b' ∨ c = '\x0c'

/-- Remove trailing whitespace (the right half of `str.strip()`). -/
def dropTrailWs (l : List Char) : List Char :=
  (l.reverse.dropWhile pyWs).reverse

/-- Python `str.strip()`. -/
def pyStrip (l : List Char) : List Char :=
  dropTrailWs (l.dropWhile pyWs)

/-- Python `str.lower()` (ASCII case folding; the CJK characters appearing in
the repository's tables have no case). -/
def lowerStr (l : List Char) : List Char := l.map Char.toLower

/-- Python `str.split(sep)` for a one-character separator: always returns at
least one (possibly empty) segment. -/
def splitOnChar (sep : Char) : List Char → List (List Char)
  | [] => [[]]
  | c :: rest =>
    match splitOnChar sep rest with
    | [] => if c = sep then [[], [c]] else [[c]]
    | h :: t => if c = sep then [] :: h :: t else (c :: h) :: t

/-- Value of a decimal digit string (`int(s)` on an all-digit string);
junk characters contribute garbage, callers only apply it to digit runs. -/
def toNatD (l : List Char) : Nat :=
  l.foldl (fun a c => 10 * a + (c.toNat - 48)) 0

/-- Decimal rendering of a natural number, by fuel-bounded division so that the
kernel can evaluate it. -/
def numStrAux : Nat → Nat → List Char
  | 0, _ => []
  | fuel + 1, n =>
    if n = 0 then []
    else numStrAux fuel (n / 10) ++ [Nat.digitChar (n % 10)]

/-- Decimal rendering of a natural number (`str(n)`). -/
def numStr (n : Nat) : List Char :=
  if n = 0 then ['0'] else numStrAux (n + 1) n

/-- Decimal rendering of an integer (`str(n)` for Python ints). -/
def intStr (n : Int) : List Char :=
  if n < 0 then '-' :: numStr n.natAbs else numStr n.natAbs

/-- Left-pad with `'0'` to width `w` (`str.zfill` on an unsigned string, and
the `{n:0wd}` format directive). -/
def padZ (w : Nat) (l : List Char) : List Char :=
  List.replicate (w - l.length) '0' ++ l

end PyStr

/-- Embedding of Python values as they flow through the engine: `None`,
`str`, `int`, and `float` (exact rational model). -/
inductive Value where
  | vNone : Value
  | vStr (s : String) : Value
  | vInt (n : Int) : Value
  | vFloat (q : Rat) : Value
deriving DecidableEq, Repr

namespace FieldFormatter

open PyStr

/-- The character class kept by `re.sub(r'[^\d\.\-\,]', '', s)` in
`FieldFormatter.normalize_float`. -/
def cleanKeep (c : Char) : Bool :=
  c.isDigit ∨ c = '.' ∨ c = '-' ∨ c = ','

/-- The thousands-separator / decimal-comma disambiguation block of
`FieldFormatter.normalize_float` (field_formatter.py lines 261-279). -/
def resolveCommas (l : List Char) : List Char :=
  if ',' ∈ l ∧ '.' ∈ l then l.filter (· ≠ ',')
  else if ',' ∈ l then
    let parts := splitOnChar ',' l
    if parts.length > 2 then l.filter (· ≠ ',')
    else if parts.length = 2 then
      if (parts.getD 1 []).length = 3 then l.filter (· ≠ ',')
      else l.map (fun c => if c = ',' then '.' else c)
    else l
  else l

/-- Python `float(s)` on the post-cleaning alphabet (digits, `.`, `-`, `,`):
an optional leading minus, then a nonempty digit string with at most one
decimal point and at least one digit; anything else raises (`none`). -/
def parsePyFloat (l : List Char) : Option Rat :=
  let neg : Bool := l.head? = some '-'
  let body := if neg then l.drop 1 else l
  if body ≠ [] ∧ body.all (fun c => c.isDigit ∨ c = '.') ∧
      body.count '.' ≤ 1 ∧ body.any Char.isDigit then
    let ip := body.takeWhile (· ≠ '.')
    let fp := (body.dropWhile (· ≠ '.')).drop 1
    let mag : Rat := (toNatD ip : Rat) + (toNatD fp : Rat) / ((10 : Rat) ^ fp.length)
    some (if neg then -mag else mag)
  else none

/-- Python `round()` (round-half-to-even) on the exact rational model. -/
def pyRound (q : Rat) : Int :=
  let f := q.floor
  let r := q - (f : Rat)
  if r < 1 / 2 then f
  else if 1 / 2 < r then f + 1
  else if f % 2 = 0 then f else f + 1

/-- The string pipeline of `FieldFormatter.normalize_float` (lines 248-287):
strip, null-like check, percent detection/removal, character cleaning, comma
disambiguation, parse, percent division. -/
def normFloatStr (l : List Char) : Option Rat :=
  let vs := pyStrip l
  if vs = [] ∨ vs = ['-'] ∨ lowerStr vs = "nan".toList ∨ lowerStr vs = "none".toList
  then none
  else
    let isPct := '%' ∈ vs
    let v1 := vs.filter (· ≠ '%')
    let v2 := v1.filter cleanKeep
    let v3 := resolveCommas v2
    (parsePyFloat v3).map (fun q => if isPct then q / 100 else q)

/-- `FieldFormatter.normalize_float` (field_formatter.py lines 239-287). -/
def normalize_float : Value → Option Rat
  | .vNone => none
  | .vInt n => some (n : Rat)
  | .vFloat q => some q
  | .vStr s => normFloatStr s.toList

/-- `FieldFormatter.normalize_int` (field_formatter.py lines 289-309). -/
def normalize_int : Value → Option Int
  | .vNone => none
  | .vInt n => some n
  | .vFloat q => some (pyRound q)
  | .vStr s =>
    let vs := pyStrip s.toList
    if vs = [] ∨ vs = ['-'] ∨ lowerStr vs = "nan".toList ∨ lowerStr vs = "none".toList
    then none
    else (normFloatStr vs).map pyRound

end FieldFormatter

namespace FieldFormatter

open PyStr

/-- `StockCodeFormat` (field_formatter.py lines 13-17). -/
inductive StockCodeFormat where
  | pureNumeric : StockCodeFormat
  | withSfx : StockCodeFormat
  | withPfx : StockCodeFormat
deriving DecidableEq, Repr

/-- The flattened `MARKET_SUFFIX` table in iteration order, after the stable
length-descending sort of `normalize_stock_code` (all entries have length 3 or
2, so the stable sort lists the length-3 variants first, keeping their
original relative order, then the length-2 variants). -/
def sortedSfx : List (String × String) :=
  [("sh", ".SH"), ("sh", ".sh"), ("sz", ".SZ"), ("sz", ".sz"), ("bj", ".BJ"), ("bj", ".bj"),
   ("sh", "SH"), ("sh", "sh"), ("sz", "SZ"), ("sz", "sz"), ("bj", "BJ"), ("bj", "bj")]

/-- The flattened `MARKET_PREFIX` table in iteration order (all entries have
length 2, so the stable length sort is the identity). -/
def sortedPfx : List (String × String) :=
  [("sh", "sh"), ("sh", "SH"), ("sz", "sz"), ("sz", "SZ"), ("bj", "bj"), ("bj", "BJ")]

/-- The suffix-matching loop of `normalize_stock_code` (lines 83-87): first
matching suffix wins; the part before the suffix becomes the numeric part. -/
def sfxLookup (l : List Char) : List (String × String) → Option (String × List Char)
  | [] => none
  | (mkt, suf) :: rest =>
    if suf.toList.isSuffixOf l then some (mkt, l.take (l.length - suf.length))
    else sfxLookup l rest

/-- The prefix-matching loop of `normalize_stock_code` (lines 98-102). -/
def pfxLookup (l : List Char) : List (String × String) → Option (String × List Char)
  | [] => none
  | (mkt, pre) :: rest =>
    if pre.toList.isPrefixOf l then some (mkt, l.drop pre.length)
    else pfxLookup l rest

/-- `re.search(r'(\d+)', s)`: the first maximal run of digits, if any. -/
def firstDigitRun (l : List Char) : Option (List Char) :=
  match l.dropWhile (fun c => ¬ c.isDigit) with
  | [] => none
  | c :: rest => some (c :: rest.takeWhile Char.isDigit)

/-- The leading-digit market-inference table of `normalize_stock_code`
(lines 111-117), applied to a digit run; the empty string stands for
Python's `None` market (the code only ever tests the market's truthiness). -/
def inferFromLead (run : List Char) : String :=
  if run.head? = some '6' then "sh"
  else if run.head? = some '0' ∨ run.head? = some '3' then "sz"
  else if run.head? = some '8' ∨ run.head? = some '4' ∨ run.head? = some '9' then "bj"
  else ""

/-- Steps 1-3 of `normalize_stock_code` (lines 67-119): extract the numeric
part and the market tag from a stripped code string. Returns
`(numeric_part, market)`, with `""` for an undetermined market. -/
def detectMarket (l : List Char) (defaultMarket : String) : List Char × String :=
  match sfxLookup l sortedSfx with
  | some (mkt, np) => (np, mkt)
  | none =>
    match pfxLookup l sortedPfx with
    | some (mkt, np) => (np, mkt)
    | none =>
      match firstDigitRun l with
      | none => ([], "")
      | some run =>
        if defaultMarket = "auto" then
          (run, if run.length = 6 then inferFromLead run else "")
        else (run, defaultMarket)

/-- `FieldFormatter.normalize_stock_code` (field_formatter.py lines 45-143). -/
def normalize_stock_code (code : Option String)
    (targetFormat : StockCodeFormat := .pureNumeric)
    (defaultMarket : String := "auto") : Option String :=
  match code with
  | none => none
  | some c =>
    let cs := pyStrip c.toList
    if cs = [] then none
    else
      let nm := detectMarket cs defaultMarket
      if nm.1 = [] then some ⟨cs⟩
      else
        let np := padZ 6 (nm.1.filter Char.isDigit)
        match targetFormat with
        | .pureNumeric => some ⟨np⟩
        | .withSfx =>
          if nm.2 ≠ "" then some ⟨np ++ '.' :: (nm.2.toList.map Char.toUpper)⟩
          else some ⟨np⟩
        | .withPfx =>
          if nm.2 ≠ "" then some ⟨nm.2.toList.map Char.toLower ++ np⟩
          else some ⟨np⟩

end FieldFormatter

namespace FieldMapper

open PyStr

/-- The hard-coded alias table `FieldMapper.field_equivalents`
(field_mapper.py lines 25-111), in source (= dict iteration) order. -/
def field_equivalents : List (String × List String) :=
  [ ("date", ["日期", "DATE", "TRADE_DATE", "年月", "发布时间", "时间", "datetime", "交易日期",
      "更新日期", "公告日期", "上市日期", "成立日期", "报告期", "变动日期", "净值日期", "统计时间",
      "start_date", "end_date", "tradedate", "report_date", "REPORT_DATE", "发布日期",
      "DATE_TYPE_CODE", "STD_REPORT_DATE", "START_DATE", "NOTICE_DATE", "FINANCIAL_DATE",
      "DATE_TYPE", "update_time", "月份", "当月"]),
    ("symbol", ["代码", "股票代码", "基金代码", "指数代码", "债券代码", "期货代码", "合约代码",
      "code", "stock_code", "fund_code", "证券代码", "stock", "bond_code", "bond_name",
      "bond_code"]),
    ("name", ["名称", "股票名称", "基金名称", "指数名称", "债券名称", "期货名称", "商品", "title",
      "股票简称", "基金简称", "债券简称", "证券简称", "简称", "report_name", "quarter_name",
      "metric_name", "SECURITY_NAME_ABBR", "STD_ITEM_NAME", "ITEM_NAME", "REPORT_DATE_NAME"]),
    ("close", ["收盘价", "CLOSE", "最新价", "现价", "收盘"]),
    ("open", ["开盘价", "OPEN", "今开", "开盘"]),
    ("high", ["最高价", "HIGH", "最高"]),
    ("low", ["最低价", "LOW", "最低"]),
    ("volume", ["成交量", "VOLUME", "成交量(手)"]),
    ("amount", ["成交额", "AMOUNT", "成交额(万)"]),
    ("change_pct", ["涨跌幅", "涨跌", "涨跌幅(%)", "change", "变动"]),
    ("change_amount", ["涨跌额", "变化值"]),
    ("actual", ["今值", "现值", "最新值"]),
    ("previous", ["前值", "昨收"]),
    ("forecast", ["预测值", "预期值", "预测"]),
    ("market", ["市场", "exchange", "交易所", "交易市场"]),
    ("adjust", ["复权类型", "复权"]),
    ("period", ["周期", "frequency"]),
    ("market_cap", ["总市值", "市值"]),
    ("float_market_cap", ["流通市值"]),
    ("pe_ratio", ["市盈率", "市盈率-动态"]),
    ("pb_ratio", ["市净率"]),
    ("turnover_rate", ["换手率"]),
    ("net_value", ["单位净值"]),
    ("daily_growth", ["日增长率"]),
    ("fund_manager", ["基金经理"]),
    ("fund_company", ["基金公司"]),
    ("value", ["数值", "值", "mid_convert_value"]),
    ("year", ["年"]),
    ("month", ["月"]),
    ("issue_year", ["发行年份"]),
    ("indicator", ["指标", "item"]),
    ("amplitude", ["振幅"]),
    ("change_pct_1y", ["近1年涨跌幅"]),
    ("change_pct_3m", ["近3月涨跌幅"]),
    ("change_pct_6m", ["近6月涨跌幅"]),
    ("change_pct_2y", ["近2年涨跌幅"]),
    ("change_pct_3y", ["近3年涨跌幅"]),
    ("industry", ["所属行业", "行业"]),
    ("shareholder_name", ["股东名称"]),
    ("shareholder_type", ["股东类型"]),
    ("volume_ratio", ["量比"]),
    ("fee", ["手续费"]),
    ("change_speed", ["涨速"]),
    ("location", ["注册地"]),
    ("status", ["申购状态", "赎回状态"]),
    ("type", ["类型", "品种"]),
    ("index", ["指数"]),
    ("total_shares", ["总股本"]),
    ("issue_price", ["发行价格"]),
    ("institution_name", ["机构名称", "营业部名称"]),
    ("avg_price", ["均价"]),
    ("change_pct_5m", ["5分钟涨跌"]),
    ("change_pct_60d", ["60日涨跌幅"]),
    ("change_pct_ytd", ["年初至今涨跌幅"]),
    ("holding_value", ["持股市值"]),
    ("qvix", []) ]

/-- The lookup loop of `FieldMapper.get_canonical_name` (lines 144-150):
first canonical whose name equals the stripped input, or whose alias list
contains it exactly, or contains it case-insensitively. -/
def canonLookup (st lo : String) : List (String × List String) → Option String
  | [] => none
  | (canonical, eqs) :: rest =>
    if st = canonical ∨ st ∈ eqs ∨ lo ∈ eqs.map (fun e => String.mk (lowerStr e.toList))
    then some canonical
    else canonLookup st lo rest

/-- `FieldMapper.get_canonical_name` (field_mapper.py lines 135-152).
The `pd.isna` guard is identically false on strings, so only the three
string placeholders short-circuit. -/
def get_canonical_name (fieldName : String) : String :=
  if fieldName = "nan" ∨ fieldName = "" ∨ fieldName = "-" then fieldName
  else
    let st : String := ⟨pyStrip fieldName.toList⟩
    let lo : String := ⟨lowerStr st.toList⟩
    match canonLookup st lo field_equivalents with
    | some canonical => canonical
    | none => st

end FieldMapper

namespace PyDict

/-- Python dict lookup on an insertion-ordered association list. -/
def dlookup {α : Type} (k : String) : List (String × α) → Option α
  | [] => none
  | (k', v) :: rest => if k' = k then some v else dlookup k rest

/-- Python dict assignment `d[k] = v`: update in place if the key exists,
otherwise append (insertion order preserved). -/
def dictInsert {α : Type} (k : String) (v : α) : List (String × α) → List (String × α)
  | [] => [(k, v)]
  | (k', v') :: rest =>
    if k' = k then (k, v) :: rest else (k', v') :: dictInsert k v rest

end PyDict

namespace Validate

open PyDict

/-- The consistency defects reported by
`FieldEquivalentsValidator.validate_equivalents_consistency`
(validate_field_equivalents.py lines 103-137), as structured records instead
of the formatted message strings. -/
inductive Issue where
  | dupCanon (canonical previous : String) : Issue
  | crossAlias (spelling previous current : String) : Issue
  | cycleEq (canonical spelling : String) : Issue
deriving DecidableEq, Repr

/-- The inner alias loop of the first validation pass (lines 116-121):
threads the `field_to_standard` map and collects cross-mapping issues. -/
def aliasLoop (canonical : String) :
    List String → List (String × String) → List Issue × List (String × String)
  | [], fts => ([], fts)
  | a :: rest, fts =>
    match dlookup a fts with
    | some prev =>
      let tail := aliasLoop canonical rest fts
      (if prev ≠ canonical then .crossAlias a prev canonical :: tail.1 else tail.1, tail.2)
    | none => aliasLoop canonical rest (dictInsert a canonical fts)

/-- The first validation pass (lines 110-121): builds `field_to_standard`
and reports canonical/alias double-definitions. -/
def pass1 : List (String × List String) → List (String × String) → List Issue
  | [], _ => []
  | (canonical, eqs) :: rest, fts =>
    let i1 : List Issue :=
      match dlookup canonical fts with
      | some prev => if prev ≠ canonical then [.dupCanon canonical prev] else []
      | none => []
    let r := aliasLoop canonical eqs (dictInsert canonical canonical fts)
    i1 ++ r.1 ++ pass1 rest r.2

/-- The cyclic-equivalence check (lines 124-128). -/
def pass2 (tbl : List (String × List String)) : List Issue :=
  (tbl.map (fun ce =>
    ce.2.filterMap (fun a =>
      match dlookup a tbl with
      | some eqsA => if ce.1 ∈ eqsA then some (.cycleEq ce.1 a) else none
      | none => none))).flatten

/-- `validate_equivalents_consistency` (validate_field_equivalents.py lines
103-137): the list of reported consistency issues, in report order. -/
def validate_equivalents_consistency (tbl : List (String × List String)) : List Issue :=
  pass1 tbl [] ++ pass2 tbl

end Validate

namespace FieldFormatter

open PyStr

/-- `DateFormat` (field_formatter.py lines 20-25). -/
inductive DateFormat where
  | yyyymmdd : DateFormat
  | yyyy_mm_dd : DateFormat
  | yyyy_mm_dd_hh_mm_ss : DateFormat
  | yyyymm : DateFormat
deriving DecidableEq, Repr

/-- `re.findall(r'\d+', s)` — every maximal digit run, left to right.
The accumulator holds the current run, reversed. -/
def digitRunsGo : List Char → Option (List Char) → List (List Char)
  | [], none => []
  | [], some run => [run.reverse]
  | c :: rest, none =>
    if c.isDigit then digitRunsGo rest (some [c]) else digitRunsGo rest none
  | c :: rest, some run =>
    if c.isDigit then digitRunsGo rest (some (c :: run))
    else run.reverse :: digitRunsGo rest none

/-- All maximal digit runs of a string. -/
def digitRuns (l : List Char) : List (List Char) := digitRunsGo l none

/-- One `\d{1,2}` group of the Chinese-date regex followed by the literal
terminator `t`, with the regex's greedy-then-backtrack behaviour: two digits
before `t` if possible, else one digit before `t`, else fail. -/
def cnTail (t : Char) : List Char → Option (Nat × List Char)
  | a :: b :: c :: rest =>
    if a.isDigit ∧ b.isDigit ∧ c = t then some (toNatD [a, b], rest)
    else if a.isDigit ∧ b = t then some (toNatD [a], c :: rest)
    else none
  | [a, b] => if a.isDigit ∧ b = t then some (toNatD [a], []) else none
  | _ => none

/-- `re.match(r'(\d{4})年(\d{1,2})月(\d{1,2})日', s)` (field_formatter.py line
170): anchored at the start, arbitrary trailing text allowed. -/
def cnMatch : List Char → Option (Nat × Nat × Nat)
  | a :: b :: c :: d :: e :: rest =>
    if a.isDigit ∧ b.isDigit ∧ c.isDigit ∧ d.isDigit ∧ e = '年' then
      (cnTail '月' rest).bind fun mr =>
        (cnTail '日' mr.2).map fun dr => (toNatD [a, b, c, d], mr.1, dr.1)
    else none
  | _ => none

/-- A generic date parse result: year, month, day, hour, minute, second
(pandas timestamps always carry a time which is zero for date-only input). -/
abbrev PdParse := List Char → Option (Nat × Nat × Nat × Nat × Nat × Nat)

/-- One to two digits at the head of the input (a `\d{1,2}`-style field of the
generic parse), returning the value and the remaining input. -/
def takeD12 (l : List Char) : Option (Nat × List Char) :=
  let ds := l.takeWhile Char.isDigit
  if 1 ≤ ds.length ∧ ds.length ≤ 2 then some (toNatD ds, l.drop ds.length)
  else none

/-- `HH:MM:SS` tail of the generic parse, consuming the entire rest. -/
def parseHMS (l : List Char) : Option (Nat × Nat × Nat) :=
  (takeD12 l).bind fun hr =>
    match hr.2 with
    | c1 :: r2 =>
      if c1 = ':' then
        (takeD12 r2).bind fun mr =>
          match mr.2 with
          | c2 :: r3 =>
            if c2 = ':' then
              (takeD12 r3).bind fun sr =>
                if sr.2 = [] then some (hr.1, mr.1, sr.1) else none
            else none
          | [] => none
      else none
    | [] => none

/-- Modelled from the spec: the generic free-text date/time parse of
`normalize_date` (`pandas.to_datetime(s, errors='coerce', dayfirst=False)`,
field_formatter.py lines 177-188) is a third-party library call, not
repository code. Following §4.1 step 3 of the specification it is modelled as
a permissive month-before-day parse of separator-delimited dates — a
four-digit year, `-` or `/` as the (consistent) separator, one-or-two-digit
month and day in range, and an optional `HH:MM:SS` clock — declining
(`NaT`, hence `none`) on everything else, in particular on bare digit
strings, which fall through to the digit-extraction fallback. -/
def pdModel : PdParse := fun l =>
  let y4 := l.takeWhile Char.isDigit
  if y4.length = 4 then
    match l.drop 4 with
    | sep :: rest =>
      if sep = '-' ∨ sep = '/' then
        (takeD12 rest).bind fun mr =>
          match mr.2 with
          | sep2 :: r2 =>
            if sep2 = sep then
              (takeD12 r2).bind fun dr =>
                let ok := 1 ≤ mr.1 ∧ mr.1 ≤ 12 ∧ 1 ≤ dr.1 ∧ dr.1 ≤ 31
                match dr.2 with
                | [] => if ok then some (toNatD y4, mr.1, dr.1, 0, 0, 0) else none
                | c3 :: r3 =>
                  if c3 = ' ' then
                    (parseHMS r3).bind fun hms =>
                      if ok ∧ hms.1 ≤ 23 ∧ hms.2.1 ≤ 59 ∧ hms.2.2 ≤ 59 then
                        some (toNatD y4, mr.1, dr.1, hms.1, hms.2.1, hms.2.2)
                      else none
                  else none
            else none
          | _ => none
      else none
    | [] => none
  else none

/-- The validation-and-render tail of `normalize_date` (field_formatter.py
lines 219-237): clamp month to `[1,12]` and day to `[1,31]` (defaulting both
to 1), then format; a zero year fails every render branch's truthiness test
and falls through to returning the (stripped) input `ds`. -/
def finishD (f : DateFormat) (ds : List Char) (y : Nat)
    (mo dy hr mi sec : Option Nat) : List Char :=
  let m := match mo with
    | some m => if 1 ≤ m ∧ m ≤ 12 then m else 1
    | none => 1
  let d := match dy with
    | some d => if 1 ≤ d ∧ d ≤ 31 then d else 1
    | none => 1
  if y = 0 then ds
  else
    match f with
    | .yyyymmdd => padZ 4 (numStr y) ++ padZ 2 (numStr m) ++ padZ 2 (numStr d)
    | .yyyy_mm_dd =>
      padZ 4 (numStr y) ++ '-' :: padZ 2 (numStr m) ++ '-' :: padZ 2 (numStr d)
    | .yyyy_mm_dd_hh_mm_ss =>
      let base := padZ 4 (numStr y) ++ '-' :: padZ 2 (numStr m) ++ '-' :: padZ 2 (numStr d)
      match hr with
      | some h =>
        base ++ ' ' :: (padZ 2 (numStr h) ++ ':' :: padZ 2 (numStr (mi.getD 0)) ++
          ':' :: padZ 2 (numStr (sec.getD 0)))
      | none => base ++ " 00:00:00".toList
    | .yyyymm => padZ 4 (numStr y) ++ padZ 2 (numStr m)

/-- The four fully-rendered output shapes of `finishD` for a nonzero year,
with the month and day already clamped into range and the clock digits made
explicit (the `hour is None` render `" 00:00:00"` is the `H = Mi = Se = 0`
instance of the explicit clock). -/
def renderF (f : DateFormat) (y M D H Mi Se : Nat) : List Char :=
  match f with
  | .yyyymmdd => padZ 4 (numStr y) ++ padZ 2 (numStr M) ++ padZ 2 (numStr D)
  | .yyyy_mm_dd => padZ 4 (numStr y) ++ '-' :: padZ 2 (numStr M) ++ '-' :: padZ 2 (numStr D)
  | .yyyy_mm_dd_hh_mm_ss =>
    padZ 4 (numStr y) ++ '-' :: (padZ 2 (numStr M) ++ '-' :: (padZ 2 (numStr D) ++ ' ' ::
      (padZ 2 (numStr H) ++ ':' :: (padZ 2 (numStr Mi) ++ ':' :: padZ 2 (numStr Se)))))
  | .yyyymm => padZ 4 (numStr y) ++ padZ 2 (numStr M)

/-- The month/day clamp of `finishD`, factored out as a function. -/
def clampV (hi : Nat) : Option Nat → Nat
  | some v => if 1 ≤ v ∧ v ≤ hi then v else 1
  | none => 1

/-- `normalize_date` after the initial strip (field_formatter.py lines
162-237), parameterized by the generic parse `pdp`: null-like check, the
Chinese-date pattern first, then the generic parse, then digit-extraction
fallback, then clamp and render. -/
def ndAfterStrip (pdp : PdParse) (ds : List Char) (f : DateFormat) :
    Option (List Char) :=
  if ds = [] ∨ lowerStr ds = "nan".toList ∨ lowerStr ds = "nat".toList ∨
      lowerStr ds = "none".toList then none
  else
    match cnMatch ds with
    | some ymd => some (finishD f ds ymd.1 (some ymd.2.1) (some ymd.2.2) none none none)
    | none =>
      match pdp ds with
      | some r =>
        some (finishD f ds r.1 (some r.2.1) (some r.2.2.1) (some r.2.2.2.1)
          (some r.2.2.2.2.1) (some r.2.2.2.2.2))
      | none =>
        let runs := digitRuns ds
        if runs = [] then some ds
        else
          let comb := runs.flatten
          if comb.length ≥ 8 then
            let y := toNatD (comb.take 4)
            let m := toNatD ((comb.drop 4).take 2)
            let d := toNatD ((comb.drop 6).take 2)
            if comb.length ≥ 14 then
              some (finishD f ds y (some m) (some d) (some (toNatD ((comb.drop 8).take 2)))
                (some (toNatD ((comb.drop 10).take 2))) (some (toNatD ((comb.drop 12).take 2))))
            else some (finishD f ds y (some m) (some d) none none none)
          else if comb.length = 6 then
            some (finishD f ds (toNatD (comb.take 4)) (some (toNatD (comb.drop 4)))
              none none none none)
          else if comb.length = 4 then
            some (finishD f ds (toNatD comb) (some 1) none none none none)
          else some ds

/-- `normalize_date` with an explicit generic parse. -/
def ndGen (pdp : PdParse) (dateStr : Option String) (f : DateFormat) : Option String :=
  match dateStr with
  | none => none
  | some s => (ndAfterStrip pdp (pyStrip s.toList) f).map (fun l => ⟨l⟩)

/-- `FieldFormatter.normalize_date` (field_formatter.py lines 145-237), with
the generic library parse instantiated to its spec model `pdModel`. -/
def normalize_date (dateStr : Option String)
    (f : DateFormat := .yyyy_mm_dd) : Option String :=
  ndGen pdModel dateStr f

end FieldFormatter

/-- A record (one row / one parameter map): a Python dict in insertion order. -/
abbrev Record := List (String × Value)

namespace UnifiedFieldSystem

open PyStr PyDict

/-- The lookup loop of `UnifiedFieldSystem._map_to_standard_field`
(unified_field_system.py lines 150-157): first standard field whose alias
list contains the raw field exactly, or whose own name matches it
case-insensitively. -/
def stdLookup (field : String) : List (String × List String) → Option String
  | [] => none
  | (std, eqs) :: rest =>
    if field ∈ eqs ∨ lowerStr field.toList = lowerStr std.toList then some std
    else stdLookup field rest

/-- `UnifiedFieldSystem._map_to_standard_field` over the default configuration
(`FieldMapper.field_equivalents`); an unmatched field maps to itself. -/
def mapToStandardField (field : String) : String :=
  (stdLookup field FieldMapper.field_equivalents).getD field

/-- Python `str(value)` on an engine value (`none` for Python `None`).
The `vFloat` rendering is a stand-in: Python's shortest-round-trip float
repr is not modelled, and no theorem below evaluates it. -/
def pyStrOf : Value → Option String
  | .vNone => none
  | .vStr s => some s
  | .vInt n => some ⟨intStr n⟩
  | .vFloat q => some ⟨intStr q.num ++ (if q.den = 1 then ".0".toList else '/' :: numStr q.den)⟩

/-- `FieldFormatter.normalize_stock_code(value)` applied to an arbitrary
value, as `_normalize_value` does (default target and market). -/
def normalizeStockCodeV (v : Value) : Value :=
  match FieldFormatter.normalize_stock_code (pyStrOf v) .pureNumeric "auto" with
  | some s => .vStr s
  | none => .vNone

/-- `FieldFormatter.normalize_date(value)` applied to an arbitrary value
(default `YYYY-MM-DD` target). -/
def normalizeDateV (v : Value) : Value :=
  match FieldFormatter.normalize_date (pyStrOf v) .yyyy_mm_dd with
  | some s => .vStr s
  | none => .vNone

/-- Python `pat in s` for strings: `pat` occurs as a contiguous substring. -/
def containsSeq (pat : List Char) : List Char → Bool
  | [] => pat.isEmpty
  | c :: rest => pat.isPrefixOf (c :: rest) || containsSeq pat rest

/-- `any(keyword in field_lower for keyword in kws)`. -/
def keywordHit (fieldLower : List Char) (kws : List String) : Bool :=
  kws.any (fun k => containsSeq k.toList fieldLower)

/-- `UnifiedFieldSystem._normalize_value` (unified_field_system.py lines
236-253): keyword-sniffed dispatch to the code, date, or (for string values)
float normalizer; everything else passes through. -/
def normalizeValueU (field : String) (v : Value) : Value :=
  let fl := lowerStr field.toList
  if keywordHit fl ["symbol", "code", "stock", "bond", "fund", "index"] then
    normalizeStockCodeV v
  else if keywordHit fl ["date", "time", "year", "month"] then
    normalizeDateV v
  else if keywordHit fl ["price", "amount", "value", "rate", "percent"] then
    match v with
    | .vStr s =>
      match FieldFormatter.normFloatStr s.toList with
      | some q => .vFloat q
      | none => .vNone
    | _ => v
  else v

/-- `UnifiedFieldSystem.unify_input` (unified_field_system.py lines 159-173):
each caller key is mapped forward to its standard field and the value is
normalized by keyword sniffing; the `api_name` argument is not consulted. -/
def unify_input (apiName : String) (userInput : Record) : Record :=
  userInput.foldl (fun acc kv =>
    dictInsert (mapToStandardField kv.1)
      (normalizeValueU (mapToStandardField kv.1) kv.2) acc) []

/-- The record-rewrite loop shared by every branch of `unify_output`. -/
def unifyRecord (r : Record) : Record :=
  r.foldl (fun acc fv =>
    dictInsert (mapToStandardField fv.1)
      (normalizeValueU (mapToStandardField fv.1) fv.2) acc) []

/-- The shapes `unify_output` distinguishes: a DataFrame (which
`to_dict('records')` turns into a list of records), a plain dict, and
anything else (the fall-through that keeps the initial `data`/`type`).
The `MockDataFrame` branch (a hand-rolled test double whose column arrays
are zipped into the same record list) is not modelled separately. -/
inductive ApiOutput where
  | dataFrame (rs : List Record) : ApiOutput
  | dict (r : Record) : ApiOutput
  | other : ApiOutput

/-- The `data` payload of a unified output: a record list or one record. -/
inductive RecOrList where
  | table (rs : List Record) : RecOrList
  | single (r : Record) : RecOrList
deriving DecidableEq

/-- The result dict of `unify_output`: exactly the two keys `data` and
`type`. -/
structure UnifiedOutput where
  data : RecOrList
  type : String
deriving DecidableEq

/-- `UnifiedFieldSystem.unify_output` (unified_field_system.py lines
175-234). -/
def unify_output (apiName : String) (o : ApiOutput) : UnifiedOutput :=
  match o with
  | .dataFrame rs => ⟨.table (rs.map unifyRecord), "DataFrame"⟩
  | .dict r => ⟨.single (unifyRecord r), "dict"⟩
  | .other => ⟨.table [], "unknown"⟩

end UnifiedFieldSystem

namespace InterfaceFieldConverter

open PyStr PyDict UnifiedFieldSystem

/-- One interface's entry in the persisted `interface_to_fields` mapping:
original input/output spelling → canonical name. -/
structure IfaceFields where
  input : List (String × String)
  output : List (String × String)

/-- The reverse-lookup loop of `convert_field_to_api` (field_formatter.py
lines 377-380): the first original spelling whose canonical name equals the
requested field. -/
def revLookup (canonical : String) : List (String × String) → Option String
  | [] => none
  | oc :: rest => if oc.2 = canonical then some oc.1 else revLookup canonical rest

/-- `InterfaceFieldConverter._convert_value` (field_formatter.py lines
387-403): date, code, and numeric keyword dispatch (the first two only for
string values). -/
def convertValue (fieldName : String) (v : Value) : Value :=
  let fl := lowerStr fieldName.toList
  let numHit := keywordHit fl ["price", "close", "open", "high", "low", "volume", "amount",
      "涨", "跌", "价", "额", "量"]
  match v with
  | .vStr s =>
    if keywordHit fl ["date", "日期", "时间", "time"] then
      match FieldFormatter.normalize_date (some s) .yyyy_mm_dd with
      | some r => .vStr r
      | none => .vNone
    else if keywordHit fl ["symbol", "code", "代码"] then
      match FieldFormatter.normalize_stock_code (some s) .pureNumeric "auto" with
      | some r => .vStr r
      | none => .vNone
    else if numHit then
      match FieldFormatter.normalize_float (.vStr s) with
      | some q => .vFloat q
      | none => .vNone
    else v
  | _ =>
    if numHit then
      match FieldFormatter.normalize_float v with
      | some q => .vFloat q
      | none => .vNone
    else v

/-- `InterfaceFieldConverter.convert_field_to_api` (field_formatter.py lines
355-385): reverse-map a canonical field to the interface's original input
spelling and convert the value for that spelling (`none` mapping data models
a missing mapping file). -/
def convert_field_to_api (mapping : Option (List (String × IfaceFields)))
    (fieldName : String) (v : Value) (apiName : String) : String × Value :=
  match mapping with
  | none => (fieldName, v)
  | some m =>
    let ifaceFields := (dlookup apiName m).getD ⟨[], []⟩
    let apiFieldName := (revLookup fieldName ifaceFields.input).getD fieldName
    (apiFieldName, convertValue apiFieldName v)

end InterfaceFieldConverter

namespace DocParse

open PyStr

/-!
Line-level model of the table regular expression shared by
`FieldMapper._parse_table` (field_mapper.py lines 253-275) and
`DataInterfaceParser._parse_parameter_table` (data_parser.py lines 109-134):

    {table_name}\s*\n  \|(.+)\|\s*\n  \|([\-:]+\|)+\s*\n  ((?:\|.+\|\s*\n)+)

A document is a list of lines (newline-separated).  The label may be preceded
by arbitrary text on its line and followed only by whitespace; each `\s*\n`
may absorb whole blank lines, so blank lines are skipped between the label,
header, separator, and data rows; header, separator, and data rows start
with `|` at column 0 and end with `|` before trailing whitespace.
-/

/-- A line that is entirely whitespace. -/
def isBlankLine (l : List Char) : Bool := pyStrip l = []

/-- A header or data row: starts with `|`, ends with `|` (before trailing
whitespace), with at least one character between (`\|.+\|\s*`). -/
def isPipeLine (l : List Char) : Bool :=
  match l with
  | '|' :: _ =>
    let t := dropTrailWs l
    t.length ≥ 3 ∧ t.getLast? = some '|'
  | _ => false

/-- The separator row `\|([\-:]+\|)+\s*`: pipe-delimited nonempty cells made
of `-` and `:` only. -/
def isSepLine (l : List Char) : Bool :=
  match l with
  | '|' :: _ =>
    let t := dropTrailWs l
    let parts := splitOnChar '|' t
    t.getLast? = some '|' ∧ parts.length ≥ 3 ∧
      ((parts.drop 1).dropLast ≠ [] ∧
        ((parts.drop 1).dropLast).all (fun p =>
          p ≠ [] ∧ p.all (fun c => c = '-' ∨ c = ':')))
  | _ => false

/-- An exact-label line: the label followed only by whitespace
(`{table_name}\s*\n`; `re.search` allows arbitrary text before it). -/
def isLabelExact (label : List Char) (l : List Char) : Bool :=
  label.isSuffixOf (dropTrailWs l)

/-- A suffixed-label line (`({prefix}[^\n]*)\s*\n`): the label occurs
anywhere in the line. -/
def isLabelSuffixed (label : List Char) (l : List Char) : Bool :=
  UnifiedFieldSystem.containsSeq label l

/-- `[h.strip() for h in header.split('|') if h.strip()]`: header cells of
the header row (the boundary splits are empty and fall to the filter). -/
def headerCells (l : List Char) : List (List Char) :=
  ((splitOnChar '|' (dropTrailWs l)).map pyStrip).filter (· ≠ [])

/-- `[c.strip() for c in row.split('|')[1:-1]]`: the data cells of a row. -/
def rowCells (l : List Char) : List (List Char) :=
  (((splitOnChar '|' l).drop 1).dropLast).map pyStrip

/-- The data-row loop shared by `_parse_table` and `_parse_parameter_table`
(field_mapper.py lines 268-274, data_parser.py lines 127-132): skip blank
rows and rows containing `|---`; keep a row as a header-keyed dict exactly
when its cell count equals the header's cell count. -/
def parseTableRows (headers : List (List Char)) :
    List (List Char) → List (List (String × String))
  | [] => []
  | r :: rest =>
    if pyStrip r = [] ∨ UnifiedFieldSystem.containsSeq "|---".toList r then
      parseTableRows headers rest
    else
      let cs := rowCells r
      if cs.length = headers.length then
        (headers.zip cs).map (fun p => (String.mk p.1, String.mk p.2)) ::
          parseTableRows headers rest
      else parseTableRows headers rest

/-- `re.search` for the table pattern with a given label predicate: scan for
a label line followed (through blank lines) by a header row, a separator
row, and a nonempty run of data rows; on a structural mismatch the search
resumes at later label occurrences. Returns the header row and the data
block. -/
def findTableFrom (isLbl : List Char → Bool) :
    List (List Char) → Option (List Char × List (List Char))
  | [] => none
  | l :: rest =>
    (if isLbl l then
      match rest.dropWhile isBlankLine with
      | hd :: r2 =>
        if isPipeLine hd then
          match r2.dropWhile isBlankLine with
          | sep :: r4 =>
            if isSepLine sep then
              let r5 := r4.dropWhile isBlankLine
              if (r5.headD []).isEmpty = false ∧ isPipeLine (r5.headD []) then
                some (hd, r5.takeWhile (fun x => isPipeLine x ∨ isBlankLine x))
              else none
            else none
          | [] => none
        else none
      | [] => none
    else none).orElse (fun _ => findTableFrom isLbl rest)

/-- `FieldMapper._parse_table` (field_mapper.py lines 253-275). -/
def parseTable (label : List Char) (lines : List (List Char)) :
    List (List (String × String)) :=
  match findTableFrom (isLabelExact label) lines with
  | some hb => parseTableRows (headerCells hb.1) hb.2
  | none => []

/-- `FieldMapper._parse_table_with_prefix` (field_mapper.py lines 228-251):
the exact label first; if that yields no rows, the suffixed label. -/
def parseTableWithP (label : List Char) (lines : List (List Char)) :
    List (List (String × String)) :=
  let rows := parseTable label lines
  if rows ≠ [] then rows
  else
    match findTableFrom (isLabelSuffixed label) lines with
    | some hb => parseTableRows (headerCells hb.1) hb.2
    | none => []

/-- One parsed interface record (`_parse_file_with_detail`,
field_mapper.py lines 187-224): identity fields plus both field tables. -/
structure Iface where
  func_name : String
  target_url : String
  description : String
  input_params : List (List (String × String))
  output_params : List (List (String × String))
deriving DecidableEq, Repr

/-- The triple-line interface header
`接口:\s*(.+?)\n目标地址:\s*(.+?)\n描述:\s*(.+?)\n` in its line-per-field
shape: three consecutive label-led lines, each captured group stripped. -/
def findTriple : List (List Char) → Option (List Char × List Char × List Char)
  | l1 :: l2 :: l3 :: rest =>
    if "接口:".toList.isPrefixOf l1 ∧ "目标地址:".toList.isPrefixOf l2 ∧
        "描述:".toList.isPrefixOf l3 then
      some (pyStrip (l1.drop 3), pyStrip (l2.drop 5), pyStrip (l3.drop 3))
    else findTriple (l2 :: l3 :: rest)
  | _ => none

/-- Parse one documentation section (`_parse_file_with_detail` applied to a
single section's lines): the identity fields come from the interface header
alone; each field table is searched independently, so a malformed table on
one side never disturbs the other side or the identity fields. -/
def parseInterfaceSection (lines : List (List Char)) : Option Iface :=
  (findTriple lines).map fun t =>
    { func_name := String.mk t.1
      target_url := String.mk t.2.1
      description := String.mk t.2.2
      input_params := parseTableWithP "输入参数".toList lines
      output_params := parseTableWithP "输出参数".toList lines }

end DocParse

/-- A record carries key `k` (the Python `k in d` test on a dict). -/
def Record.hasKey (r : Record) (k : String) : Prop := ∃ v, (k, v) ∈ r

namespace DocParse

/-- A data row the loop keeps for a given header: not blank, no `|---`, and
as many cells as the header. -/
def keepRow (headers : List (List Char)) (r : List Char) : Bool :=
  !(isBlankLine r) && !(UnifiedFieldSystem.containsSeq "|---".toList r) &&
    ((rowCells r).length == headers.length)

/-- A small documentation section: identity header, an input-parameter table
whose second data row is malformed (four cells under a three-cell header),
and a well-formed output-parameter table. -/
def sampleSection : List (List Char) :=
  [ "接口: iface_demo", "目标地址: http://example.com/api", "描述: 示例接口", "",
    "输入参数", "|名称|类型|描述|", "|---|---|---|",
    "|日期|str|交易日|oops|", "|代码|str|股票代码|", "",
    "输出参数", "|名称|类型|描述|", "|---|---|---|",
    "|日期|object|交易日|", "|收盘价|float64|收盘价格|" ].map String.toList

end DocParse

namespace InterfaceFieldConverter

/-- A one-interface persisted schema whose input-field table records the
original spelling `日期` under the canonical name `date`. -/
def sampleMapping : List (String × IfaceFields) :=
  [("iface_a", ⟨[("日期", "date")], []⟩)]

end InterfaceFieldConverter

namespace PyStr

theorem dropWhile_head_false {p : Char → Bool} {l : List Char} {c : Char}
    (h : (l.dropWhile p).head? = some c) : p c = false := by
  induction l with
  | nil => simp [List.dropWhile] at h
  | cons a t ih =>
    by_cases hp : p a
    · simp [List.dropWhile, hp] at h
      exact ih h
    · simp [List.dropWhile, hp] at h
      subst h; simpa using hp

theorem dropWhile_eq_self_of_head {p : Char → Bool} {l : List Char}
    (h : ∀ c, l.head? = some c → p c = false) : l.dropWhile p = l := by
  cases l with
  | nil => rfl
  | cons a t => simp [List.dropWhile, h a rfl]

theorem dropTrailWs_front (l : List Char) : dropTrailWs l <+: l := by
  have h := List.dropWhile_suffix (l := l.reverse) pyWs
  have := List.reverse_prefix.mpr h
  simpa [dropTrailWs] using this

theorem head?_of_prefix_ne_nil {l₁ l₂ : List Char} (h : l₁ <+: l₂) (hne : l₁ ≠ []) :
    l₂.head? = l₁.head? := by
  obtain ⟨t, rfl⟩ := h
  cases l₁ with
  | nil => exact absurd rfl hne
  | cons a t' => rfl

theorem dropTrailWs_head (l : List Char) (hne : dropTrailWs l ≠ []) :
    (dropTrailWs l).head? = l.head? :=
  (head?_of_prefix_ne_nil (dropTrailWs_front l) hne).symm

theorem dropTrailWs_idem (l : List Char) : dropTrailWs (dropTrailWs l) = dropTrailWs l := by
  simp [dropTrailWs, List.dropWhile_idempotent]

theorem pyStrip_head_false {l : List Char} {c : Char}
    (h : (pyStrip l).head? = some c) : pyWs c = false := by
  unfold pyStrip at h
  have hne : dropTrailWs (l.dropWhile pyWs) ≠ [] := by
    intro he; rw [he] at h; simp at h
  rw [dropTrailWs_head _ hne] at h
  exact dropWhile_head_false h

theorem pyStrip_idem (l : List Char) : pyStrip (pyStrip l) = pyStrip l := by
  conv_lhs => rw [pyStrip]
  rw [dropWhile_eq_self_of_head (l := pyStrip l) (fun c hc => pyStrip_head_false hc)]
  rw [show pyStrip l = dropTrailWs (l.dropWhile pyWs) from rfl, dropTrailWs_idem]

theorem getLast?_of_suffix_ne_nil {l₁ l₂ : List Char} (h : l₁ <:+ l₂) (hne : l₁ ≠ []) :
    l₂.getLast? = l₁.getLast? := by
  obtain ⟨t, rfl⟩ := h
  rw [List.getLast?_append_of_ne_nil _ hne]

theorem pyStrip_eq_self_of_all {l : List Char} (h : ∀ c ∈ l, pyWs c = false) :
    pyStrip l = l := by
  unfold pyStrip
  rw [dropWhile_eq_self_of_head (fun c hc => h c (by
    cases l with
    | nil => simp at hc
    | cons a t => exact (by simp at hc; simp [hc]))),
    dropTrailWs]
  rw [dropWhile_eq_self_of_head (fun c hc => ?_), List.reverse_reverse]
  rw [List.head?_reverse] at hc
  exact h c (List.mem_of_mem_getLast? hc)

theorem ws_decomp (l : List Char) :
    l = l.takeWhile pyWs ++ pyStrip l ++ ((l.dropWhile pyWs).reverse.takeWhile pyWs).reverse := by
  have h2 : l.dropWhile pyWs =
      pyStrip l ++ ((l.dropWhile pyWs).reverse.takeWhile pyWs).reverse := by
    conv_lhs => rw [← List.reverse_reverse (l.dropWhile pyWs)]
    conv_lhs =>
      rw [← List.takeWhile_append_dropWhile (p := pyWs) (l := (l.dropWhile pyWs).reverse)]
    rw [List.reverse_append]
    rfl
  conv_lhs => rw [← List.takeWhile_append_dropWhile (p := pyWs) (l := l), h2]
  rw [List.append_assoc]

theorem filter_pyStrip {p : Char → Bool} (hp : ∀ c, pyWs c = true → p c = false)
    (l : List Char) : (pyStrip l).filter p = l.filter p := by
  have hpre : (l.takeWhile pyWs).filter p = [] :=
    List.filter_eq_nil_iff.mpr (fun c hc => by simp [hp c (List.mem_takeWhile_imp hc)])
  have hsuf : (((l.dropWhile pyWs).reverse.takeWhile pyWs).reverse).filter p = [] :=
    List.filter_eq_nil_iff.mpr (fun c hc => by
      rw [List.mem_reverse] at hc
      simp [hp c (List.mem_takeWhile_imp hc)])
  conv_rhs => rw [ws_decomp l]
  rw [List.filter_append, List.filter_append, hpre, hsuf]
  simp

theorem mem_pyStrip_of_not_ws {c : Char} {l : List Char} (h : c ∈ l)
    (hws : pyWs c = false) : c ∈ pyStrip l := by
  have hfe : (pyStrip l).filter (· = c) = l.filter (· = c) :=
    filter_pyStrip (fun d hd => by
      by_cases hdc : d = c
      · subst hdc; rw [hd] at hws; exact absurd hws (by simp)
      · simp [hdc]) l
  have h2 : c ∈ l.filter (· = c) := List.mem_filter.mpr ⟨h, by simp⟩
  rw [← hfe] at h2
  exact (List.mem_filter.mp h2).1

theorem toNatD_go (b : List Char) : ∀ i : Nat,
    b.foldl (fun a c => 10 * a + (c.toNat - 48)) i = i * 10 ^ b.length + toNatD b := by
  induction b with
  | nil => intro i; simp [toNatD]
  | cons c t ih =>
    intro i
    show (t.foldl _ (10 * i + (c.toNat - 48))) = _
    rw [ih]
    have h2 : toNatD (c :: t) = (c.toNat - 48) * 10 ^ t.length + toNatD t := by
      show (t.foldl _ (10 * 0 + (c.toNat - 48))) = _
      rw [ih]
      ring_nf
    rw [h2]
    simp [List.length_cons]
    ring

theorem toNatD_cons (c : Char) (t : List Char) :
    toNatD (c :: t) = (c.toNat - 48) * 10 ^ t.length + toNatD t := by
  show (t.foldl _ (10 * 0 + (c.toNat - 48))) = _
  rw [toNatD_go]
  ring_nf

theorem toNatD_append (a b : List Char) :
    toNatD (a ++ b) = toNatD a * 10 ^ b.length + toNatD b := by
  unfold toNatD
  rw [List.foldl_append]
  exact toNatD_go b _

theorem char_digit_bounds {c : Char} (h : c.isDigit = true) :
    48 ≤ c.toNat ∧ c.toNat ≤ 57 := by
  simp [Char.isDigit] at h
  obtain ⟨h1, h2⟩ := h
  exact ⟨h1, h2⟩

theorem toNatD_lt {l : List Char} (h : ∀ c ∈ l, c.isDigit = true) :
    toNatD l < 10 ^ l.length := by
  induction l with
  | nil => simp [toNatD]
  | cons c t ih =>
    rw [toNatD_cons]
    have hd : c.toNat - 48 ≤ 9 := by
      have := char_digit_bounds (h c (by simp))
      omega
    have ht : toNatD t < 10 ^ t.length := ih (fun d hd => h d (by simp [hd]))
    calc (c.toNat - 48) * 10 ^ t.length + toNatD t
        < (c.toNat - 48) * 10 ^ t.length + 10 ^ t.length := by omega
      _ = (c.toNat - 48 + 1) * 10 ^ t.length := by ring
      _ ≤ 10 * 10 ^ t.length := by
          have : c.toNat - 48 + 1 ≤ 10 := by omega
          exact Nat.mul_le_mul_right _ this
      _ = 10 ^ (c :: t).length := by rw [List.length_cons]; ring

theorem toNatD_replicate_zero (k : Nat) : toNatD (List.replicate k '0') = 0 := by
  induction k with
  | zero => rfl
  | succ n ih =>
    rw [List.replicate_succ, toNatD_cons, ih]
    simp

theorem toNatD_padZ (w : Nat) (l : List Char) : toNatD (padZ w l) = toNatD l := by
  unfold padZ
  rw [toNatD_append, toNatD_replicate_zero]
  simp

theorem digitChar_isDigit {r : Nat} (h : r < 10) : (Nat.digitChar r).isDigit = true := by
  interval_cases r <;> rfl

theorem digitChar_toNat {r : Nat} (h : r < 10) : (Nat.digitChar r).toNat = 48 + r := by
  interval_cases r <;> rfl

theorem numStrAux_digits : ∀ (fuel n : Nat), ∀ c ∈ numStrAux fuel n, c.isDigit = true := by
  intro fuel
  induction fuel with
  | zero => intro n c hc; simp [numStrAux] at hc
  | succ f ih =>
    intro n c hc
    by_cases hn : n = 0
    · simp [numStrAux, hn] at hc
    · simp only [numStrAux, if_neg hn, List.mem_append, List.mem_singleton] at hc
      rcases hc with hc | hc
      · exact ih _ c hc
      · subst hc; exact digitChar_isDigit (Nat.mod_lt _ (by omega))

theorem toNatD_numStrAux : ∀ (fuel n : Nat), n ≤ fuel → toNatD (numStrAux fuel n) = n := by
  intro fuel
  induction fuel with
  | zero => intro n h; interval_cases n; rfl
  | succ f ih =>
    intro n h
    by_cases hn : n = 0
    · simp [numStrAux, hn, toNatD]
    · rw [numStrAux, if_neg hn, toNatD_append]
      have hlt : n / 10 ≤ f := by
        have := Nat.div_lt_self (Nat.pos_of_ne_zero hn) (by omega : 1 < 10)
        omega
      rw [ih _ hlt]
      have : toNatD [Nat.digitChar (n % 10)] = n % 10 := by
        rw [show toNatD [Nat.digitChar (n % 10)] = (Nat.digitChar (n % 10)).toNat - 48 by
          rw [toNatD_cons]; simp [toNatD]]
        rw [digitChar_toNat (Nat.mod_lt _ (by omega))]
        omega
      rw [this]
      simp
      omega

theorem toNatD_numStr (n : Nat) : toNatD (numStr n) = n := by
  unfold numStr
  by_cases hn : n = 0
  · simp [hn]; rfl
  · rw [if_neg hn]; exact toNatD_numStrAux _ _ (by omega)

theorem numStr_digits (n : Nat) : ∀ c ∈ numStr n, c.isDigit = true := by
  unfold numStr
  by_cases hn : n = 0
  · simp [hn]
  · rw [if_neg hn]; exact numStrAux_digits _ _

theorem numStrAux_len : ∀ (fuel n k : Nat), n ≤ fuel → n < 10 ^ k →
    (numStrAux fuel n).length ≤ k := by
  intro fuel
  induction fuel with
  | zero => intro n k _ _; simp [numStrAux]
  | succ f ih =>
    intro n k h hk
    by_cases hn : n = 0
    · simp [numStrAux, hn]
    · rw [numStrAux, if_neg hn]
      have hk1 : 1 ≤ k := by
        by_contra hc
        push_neg at hc
        interval_cases k
        simp at hk
        omega
      have hdiv : n / 10 < 10 ^ (k - 1) := by
        have h10 : 10 ^ k = 10 ^ (k - 1) * 10 := by
          conv_lhs => rw [show k = (k - 1) + 1 by omega]
          rw [pow_succ]
        rw [h10] at hk
        exact (Nat.div_lt_iff_lt_mul (by omega)).mpr hk
      have hf : n / 10 ≤ f := by
        have := Nat.div_lt_self (Nat.pos_of_ne_zero hn) (by omega : 1 < 10)
        omega
      have := ih (n / 10) (k - 1) hf hdiv
      rw [List.length_append]
      simp only [List.length_singleton]
      omega

theorem numStr_len_le {n k : Nat} (h : n < 10 ^ k) (hk : 1 ≤ k) :
    (numStr n).length ≤ k := by
  unfold numStr
  by_cases hn : n = 0
  · simp [hn]; omega
  · rw [if_neg hn]; exact numStrAux_len _ _ _ (by omega) h

theorem numStr_ne_nil (n : Nat) : numStr n ≠ [] := by
  unfold numStr
  by_cases hn : n = 0
  · simp [hn]
  · rw [if_neg hn, numStrAux, if_neg hn]
    simp

theorem padZ_length_of_le {w : Nat} {l : List Char} (h : l.length ≤ w) :
    (padZ w l).length = w := by
  simp [padZ]
  omega

theorem padZ_eq_self_of_le {w : Nat} {l : List Char} (h : w ≤ l.length) :
    padZ w l = l := by
  simp [padZ, Nat.sub_eq_zero_of_le h]

theorem padZ_length_ge (w : Nat) (l : List Char) : w ≤ (padZ w l).length := by
  simp [padZ]
  omega

theorem padZ_digits {l : List Char} (h : ∀ c ∈ l, c.isDigit = true) (w : Nat) :
    ∀ c ∈ padZ w l, c.isDigit = true := by
  intro c hc
  rw [padZ, List.mem_append] at hc
  rcases hc with hc | hc
  · rw [List.eq_of_mem_replicate hc]; rfl
  · exact h c hc

theorem splitOnChar_ne_nil (sep : Char) (l : List Char) : splitOnChar sep l ≠ [] := by
  cases l with
  | nil => simp [splitOnChar]
  | cons c rest =>
    cases hr : splitOnChar sep rest with
    | nil => by_cases hc : c = sep <;> simp [splitOnChar, hr, hc]
    | cons h t => by_cases hc : c = sep <;> simp [splitOnChar, hr, hc]

theorem splitOnChar_length (sep : Char) (l : List Char) :
    (splitOnChar sep l).length = l.count sep + 1 := by
  induction l with
  | nil => simp [splitOnChar]
  | cons c rest ih =>
    cases hr : splitOnChar sep rest with
    | nil => exact absurd hr (splitOnChar_ne_nil sep rest)
    | cons h t =>
      rw [hr] at ih
      simp only [List.length_cons] at ih
      by_cases hc : c = sep <;>
        simp [splitOnChar, hr, hc, List.count_cons] <;> omega

theorem mem_of_splitOnChar_two {sep : Char} {l p1 p2 : List Char}
    (h : splitOnChar sep l = [p1, p2]) : sep ∈ l := by
  have := splitOnChar_length sep l
  rw [h] at this
  simp at this
  exact List.count_pos_iff.mp (by omega)

theorem toLower_of_digit {c : Char} (h : c.isDigit = true) : c.toLower = c := by
  have hb : 48 ≤ c.toNat ∧ c.toNat ≤ 57 := by
    simp [Char.isDigit] at h; exact h
  unfold Char.toLower
  rw [if_neg (by omega)]

end PyStr

namespace FieldFormatter

open PyStr

theorem cleanKeep_ws_false {c : Char} (h : pyWs c = true) : cleanKeep c = false := by
  simp [pyWs] at h
  rcases h with rfl | rfl | rfl | rfl | rfl | rfl <;> rfl

theorem cleanKeep_percent : cleanKeep '%' = false := rfl

theorem filter_cleanKeep_percent (l : List Char) :
    (l.filter (· ≠ '%')).filter cleanKeep = l.filter cleanKeep := by
  rw [List.filter_filter]
  refine List.filter_congr (fun c _ => ?_)
  by_cases hk : cleanKeep c = true
  · have : (c ≠ '%') = True := by
      refine eq_true ?_
      intro hc
      subst hc
      rw [cleanKeep_percent] at hk
      exact absurd hk (by simp)
    simp [hk, this]
  · simp at hk
    simp [hk]

theorem filter_cleanKeep_pyStrip (l : List Char) :
    (pyStrip l).filter cleanKeep = l.filter cleanKeep :=
  filter_pyStrip (fun _ hc => cleanKeep_ws_false hc) l

/-- The cleaned string inside `normalize_float` equals the plain
`cleanKeep`-filter of the raw input: stripping, percent removal, and the
character cleaning commute. -/
theorem cleaned_eq (l : List Char) :
    ((pyStrip l).filter (· ≠ '%')).filter cleanKeep = l.filter cleanKeep := by
  rw [filter_cleanKeep_percent, filter_cleanKeep_pyStrip]

theorem cleanKeep_of_toLower_n_a {c : Char}
    (h : c.toLower = 'n' ∨ c.toLower = 'a' ∨ c.toLower = 'o' ∨ c.toLower = 'e') :
    cleanKeep c = false := by
  by_contra hc
  simp only [Bool.not_eq_false] at hc
  simp only [cleanKeep, Bool.or_eq_true, decide_eq_true_eq] at hc
  rcases hc with hd | rfl | rfl | rfl
  · rw [toLower_of_digit hd] at h
    rcases h with rfl | rfl | rfl | rfl <;> exact absurd hd (by decide)
  · rcases h with h | h | h | h <;> exact absurd h (by decide)
  · rcases h with h | h | h | h <;> exact absurd h (by decide)
  · rcases h with h | h | h | h <;> exact absurd h (by decide)

theorem mem_of_mem_pyStrip {c : Char} {l : List Char} (h : c ∈ pyStrip l) : c ∈ l := by
  rw [ws_decomp l]
  simp only [List.mem_append]
  exact Or.inl (Or.inr h)

/-- A percent sign anywhere in the input divides the parsed value by 100:
`normalize_float` on `s` equals `normalize_float` on `s` with every `%`
removed, divided by 100. -/
theorem normFloatStr_percent {l : List Char} (h : '%' ∈ l) :
    normFloatStr l = (normFloatStr (l.filter (· ≠ '%'))).map (· / 100) := by
  have h1 : '%' ∈ pyStrip l := mem_pyStrip_of_not_ws h rfl
  have hg1 : ¬(pyStrip l = [] ∨ pyStrip l = ['-'] ∨
      lowerStr (pyStrip l) = "nan".toList ∨ lowerStr (pyStrip l) = "none".toList) := by
    push_neg
    refine ⟨?_, ?_, ?_, ?_⟩
    · intro he; rw [he] at h1; simp at h1
    · intro he; rw [he] at h1; exact absurd h1 (by decide)
    · intro he
      have hm : '%'.toLower ∈ lowerStr (pyStrip l) := List.mem_map_of_mem _ h1
      rw [he] at hm
      exact absurd hm (by decide)
    · intro he
      have hm : '%'.toLower ∈ lowerStr (pyStrip l) := List.mem_map_of_mem _ h1
      rw [he] at hm
      exact absurd hm (by decide)
  have hmapdiv : (fun q : Rat => if '%' ∈ pyStrip l then q / 100 else q) =
      (fun q : Rat => q / 100) := by
    funext q; rw [if_pos h1]
  have hlhs : normFloatStr l =
      (parsePyFloat (resolveCommas (l.filter cleanKeep))).map (· / 100) := by
    unfold normFloatStr
    rw [if_neg hg1]
    dsimp only
    rw [cleaned_eq, hmapdiv]
  have hnp : '%' ∉ pyStrip (l.filter (· ≠ '%')) := by
    intro hc
    have := mem_of_mem_pyStrip hc
    have := (List.mem_filter.mp this).2
    simp at this
  have hchain : ((pyStrip (l.filter (· ≠ '%'))).filter (· ≠ '%')).filter cleanKeep =
      l.filter cleanKeep := by
    rw [cleaned_eq, filter_cleanKeep_percent]
  by_cases hg : pyStrip (l.filter (· ≠ '%')) = [] ∨ pyStrip (l.filter (· ≠ '%')) = ['-'] ∨
      lowerStr (pyStrip (l.filter (· ≠ '%'))) = "nan".toList ∨
      lowerStr (pyStrip (l.filter (· ≠ '%'))) = "none".toList
  · have hrhs : normFloatStr (l.filter (· ≠ '%')) = none := by
      unfold normFloatStr
      rw [if_pos hg]
    rw [hlhs, hrhs]
    have hfe : l.filter cleanKeep = (pyStrip (l.filter (· ≠ '%'))).filter cleanKeep := by
      rw [filter_cleanKeep_pyStrip, filter_cleanKeep_percent]
    have hnone : parsePyFloat (resolveCommas (l.filter cleanKeep)) = none := by
      rcases hg with he | he | he | he
      · rw [hfe, he]; rfl
      · rw [hfe, he]; rfl
      · have hnil : (pyStrip (l.filter (· ≠ '%'))).filter cleanKeep = [] := by
          refine List.filter_eq_nil_iff.mpr (fun c hc => ?_)
          have hm : c.toLower ∈ lowerStr (pyStrip (l.filter (· ≠ '%'))) :=
            List.mem_map_of_mem _ hc
          rw [he] at hm
          rw [show ("nan".toList) = ['n', 'a', 'n'] from rfl] at hm
          simp only [List.mem_cons, List.not_mem_nil, or_false] at hm
          have hck : cleanKeep c = false := by
            refine cleanKeep_of_toLower_n_a ?_
            rcases hm with hm | hm | hm
            · exact Or.inl hm
            · exact Or.inr (Or.inl hm)
            · exact Or.inl hm
          simp [hck]
        rw [hfe, hnil]; rfl
      · have hnil : (pyStrip (l.filter (· ≠ '%'))).filter cleanKeep = [] := by
          refine List.filter_eq_nil_iff.mpr (fun c hc => ?_)
          have hm : c.toLower ∈ lowerStr (pyStrip (l.filter (· ≠ '%'))) :=
            List.mem_map_of_mem _ hc
          rw [he] at hm
          rw [show ("none".toList) = ['n', 'o', 'n', 'e'] from rfl] at hm
          simp only [List.mem_cons, List.not_mem_nil, or_false] at hm
          have hck : cleanKeep c = false := by
            refine cleanKeep_of_toLower_n_a ?_
            rcases hm with hm | hm | hm | hm
            · exact Or.inl hm
            · exact Or.inr (Or.inr (Or.inl hm))
            · exact Or.inl hm
            · exact Or.inr (Or.inr (Or.inr hm))
          simp [hck]
        rw [hfe, hnil]; rfl
    rw [hnone]
  · have hmapid : (fun q : Rat => if '%' ∈ pyStrip (l.filter (· ≠ '%')) then q / 100 else q) =
        (fun q : Rat => q) := by
      funext q; rw [if_neg hnp]
    have hrhs : normFloatStr (l.filter (· ≠ '%')) =
        parsePyFloat (resolveCommas (l.filter cleanKeep)) := by
      unfold normFloatStr
      rw [if_neg hg]
      dsimp only
      rw [hchain, hmapid]
      cases parsePyFloat (resolveCommas (l.filter cleanKeep)) <;> rfl
    rw [hlhs, hrhs]

theorem resolveCommas_both {l : List Char} (h1 : ',' ∈ l) (h2 : '.' ∈ l) :
    resolveCommas l = l.filter (· ≠ ',') := by
  unfold resolveCommas
  rw [if_pos ⟨h1, h2⟩]

theorem resolveCommas_many {l : List Char} (h1 : ',' ∈ l) (h2 : '.' ∉ l)
    (h3 : (splitOnChar ',' l).length > 2) : resolveCommas l = l.filter (· ≠ ',') := by
  unfold resolveCommas
  rw [if_neg (fun hc => h2 hc.2), if_pos h1]
  dsimp only
  rw [if_pos h3]

theorem resolveCommas_two {l p1 p2 : List Char} (h2 : '.' ∉ l)
    (h : splitOnChar ',' l = [p1, p2]) :
    resolveCommas l = (if p2.length = 3 then l.filter (· ≠ ',')
      else l.map (fun c => if c = ',' then '.' else c)) := by
  have h1 : ',' ∈ l := mem_of_splitOnChar_two h
  unfold resolveCommas
  rw [if_neg (fun hc => h2 hc.2), if_pos h1]
  dsimp only
  rw [h]
  norm_num

end FieldFormatter

/-- C3: In `normalize_float`, when both `,` and `.` occur all commas are
stripped as thousands separators; when only `,` occurs and splits the string
into more than two segments all commas are stripped; when it splits into
exactly two segments, a length-3 second segment means the comma is stripped,
otherwise the comma becomes a decimal point; a percent sign divides the
parsed value by 100; and the four concrete normalizations hold
(`normalize_float("1,234.56") = 1234.56`, `normalize_float("100%") = 1.0`,
`normalize_float("-78.9") = -78.9`, `normalize_int("1,234.56") = 1235`). -/
theorem C3_normalize_float_commas_and_percent :
    (∀ l : List Char, ',' ∈ l → '.' ∈ l →
       FieldFormatter.resolveCommas l = l.filter (· ≠ ',')) ∧
    (∀ l : List Char, ',' ∈ l → '.' ∉ l → (PyStr.splitOnChar ',' l).length > 2 →
       FieldFormatter.resolveCommas l = l.filter (· ≠ ',')) ∧
    (∀ (l p1 p2 : List Char), '.' ∉ l → PyStr.splitOnChar ',' l = [p1, p2] →
       ((p2.length = 3 → FieldFormatter.resolveCommas l = l.filter (· ≠ ',')) ∧
        (p2.length ≠ 3 → FieldFormatter.resolveCommas l =
          l.map (fun c => if c = ',' then '.' else c)))) ∧
    (∀ s : String, '%' ∈ s.toList →
       FieldFormatter.normalize_float (.vStr s) =
         (FieldFormatter.normalize_float (.vStr ⟨s.toList.filter (· ≠ '%')⟩)).map (· / 100)) ∧
    FieldFormatter.normalize_float (.vStr "1,234.56") = some 1234.56 ∧
    FieldFormatter.normalize_float (.vStr "100%") = some 1 ∧
    FieldFormatter.normalize_float (.vStr "-78.9") = some (-78.9) ∧
    FieldFormatter.normalize_int (.vStr "1,234.56") = some 1235 := by
  refine ⟨fun l h1 h2 => FieldFormatter.resolveCommas_both h1 h2,
    fun l h1 h2 h3 => FieldFormatter.resolveCommas_many h1 h2 h3,
    fun l p1 p2 h2 h => ?_, fun s h => ?_,
    by with_unfolding_all rfl, by with_unfolding_all rfl,
    by with_unfolding_all rfl, by with_unfolding_all rfl⟩
  · constructor
    · intro h3
      rw [FieldFormatter.resolveCommas_two h2 h, if_pos h3]
    · intro h3
      rw [FieldFormatter.resolveCommas_two h2 h, if_neg h3]
  · show FieldFormatter.normFloatStr s.toList = _
    exact FieldFormatter.normFloatStr_percent h

/-- Witness for `C3_normalize_float_commas_and_percent` at concrete inputs:
`"1,2.3"` (both separators), `"1,2,3"` (three segments), `"1,23"` (two
segments, second of length 2), and `"100%"` (percent). -/
theorem C3_witness :
    ((',' ∈ "1,2.3".toList ∧ '.' ∈ "1,2.3".toList) ∧
      FieldFormatter.resolveCommas "1,2.3".toList = "1,2.3".toList.filter (· ≠ ',')) ∧
    ((PyStr.splitOnChar ',' "1,2,3".toList).length > 2 ∧
      FieldFormatter.resolveCommas "1,2,3".toList = "1,2,3".toList.filter (· ≠ ',')) ∧
    (PyStr.splitOnChar ',' "1,23".toList = ["1".toList, "23".toList] ∧
      FieldFormatter.resolveCommas "1,23".toList =
        "1,23".toList.map (fun c => if c = ',' then '.' else c)) ∧
    ('%' ∈ "100%".toList ∧
      FieldFormatter.normalize_float (.vStr "100%") =
        (FieldFormatter.normalize_float (.vStr ⟨"100%".toList.filter (· ≠ '%')⟩)).map (· / 100)) :=
  ⟨⟨⟨by decide, by decide⟩,
      C3_normalize_float_commas_and_percent.1 _ (by decide) (by decide)⟩,
    ⟨by decide,
      C3_normalize_float_commas_and_percent.2.1 _ (by decide) (by decide) (by decide)⟩,
    ⟨by decide,
      (C3_normalize_float_commas_and_percent.2.2.1 "1,23".toList "1".toList "23".toList
        (by decide) (by decide)).2 (by decide)⟩,
    ⟨by decide,
      C3_normalize_float_commas_and_percent.2.2.2.1 _ (by decide)⟩⟩

namespace UnifiedFieldSystem

open PyDict

theorem keys_dictInsert (k x : String) (v : Value) (m : Record) :
    x ∈ (dictInsert k v m).map Prod.fst ↔ x = k ∨ x ∈ m.map Prod.fst := by
  induction m with
  | nil => simp [dictInsert]
  | cons hd tl ih =>
    obtain ⟨a, b⟩ := hd
    by_cases hk : a = k
    · subst hk
      simp [dictInsert]
    · simp only [dictInsert, if_neg hk, List.map_cons, List.mem_cons, ih]
      tauto

theorem hasKey_iff (r : Record) (x : String) : r.hasKey x ↔ x ∈ r.map Prod.fst := by
  constructor
  · rintro ⟨v, hv⟩
    exact List.mem_map.mpr ⟨(x, v), hv, rfl⟩
  · intro h
    obtain ⟨p, hp, he⟩ := List.mem_map.mp h
    exact ⟨p.2, by cases p; cases he; exact hp⟩

theorem hasKey_dictInsert (k x : String) (v : Value) (m : Record) :
    (Record.hasKey (dictInsert k v m) x) ↔ x = k ∨ Record.hasKey m x := by
  rw [hasKey_iff, keys_dictInsert, hasKey_iff]

theorem hasKey_unify_fold (ps : Record) : ∀ (acc : Record) (x : String),
    Record.hasKey (ps.foldl (fun acc kv =>
      dictInsert (mapToStandardField kv.1)
        (normalizeValueU (mapToStandardField kv.1) kv.2) acc) acc) x ↔
    Record.hasKey acc x ∨ ∃ p ∈ ps, mapToStandardField p.1 = x := by
  induction ps with
  | nil => intro acc x; simp
  | cons hd tl ih =>
    intro acc x
    rw [List.foldl_cons, ih, hasKey_dictInsert]
    constructor
    · rintro ((rfl | h) | h)
      · exact Or.inr ⟨hd, List.mem_cons_self _ _, rfl⟩
      · exact Or.inl h
      · obtain ⟨p, hp, he⟩ := h
        exact Or.inr ⟨p, List.mem_cons_of_mem _ hp, he⟩
    · rintro (h | ⟨p, hp, he⟩)
      · exact Or.inl (Or.inr h)
      · rcases List.mem_cons.mp hp with rfl | hm
        · exact Or.inl (Or.inl he.symm)
        · exact Or.inr ⟨p, hm, he⟩

theorem hasKey_unifyRecord (r : Record) (k : String) :
    Record.hasKey (unifyRecord r) k ↔ ∃ p ∈ r, mapToStandardField p.1 = k := by
  rw [unifyRecord, hasKey_unify_fold]
  simp [Record.hasKey]

end UnifiedFieldSystem

/-- C10: `unify_input` is independent of the interface name: its result
depends only on the caller's keys and values and the loaded field-equivalence
table; the `api_name` argument is never consulted. -/
theorem C10_unify_input_api_name_independent :
    ∀ (a b : String) (p : Record),
      UnifiedFieldSystem.unify_input a p = UnifiedFieldSystem.unify_input b p :=
  fun _ _ _ => rfl

/-- C8: `unify_output` always yields a result with exactly the fields `data`
and `type` (the `UnifiedOutput` structure), and preserves the input shape: a
record list (DataFrame) maps to a record list of the same length, a single
mapping to a single mapping; every output record is keyed by the canonical
images of the input record's keys. -/
theorem C8_unify_output_shape_preserved :
    (∀ (api : String) (rs : List Record),
       UnifiedFieldSystem.unify_output api (.dataFrame rs) =
         ⟨.table (rs.map UnifiedFieldSystem.unifyRecord), "DataFrame"⟩ ∧
       (rs.map UnifiedFieldSystem.unifyRecord).length = rs.length) ∧
    (∀ (api : String) (r : Record),
       UnifiedFieldSystem.unify_output api (.dict r) =
         ⟨.single (UnifiedFieldSystem.unifyRecord r), "dict"⟩) ∧
    (∀ (r : Record) (k : String),
       (UnifiedFieldSystem.unifyRecord r).hasKey k ↔
         ∃ p ∈ r, UnifiedFieldSystem.mapToStandardField p.1 = k) :=
  ⟨fun _ rs => ⟨rfl, by simp⟩, fun _ _ => rfl,
    fun r k => UnifiedFieldSystem.hasKey_unifyRecord r k⟩

/-- C1 counterexample: the persisted schema records interface `iface_a` with
the original input spelling `日期` under canonical `date`, yet
`unify_input("iface_a", {"date": "20240101"})` returns the map keyed by the
canonical name `date` — the native spelling `日期` never appears, refuting
the claimed re-keying to the interface's original input spellings. -/
theorem C1_counterexample_unify_input_not_native_keyed :
    (∃ ifc ∈ InterfaceFieldConverter.sampleMapping,
       ifc.1 = "iface_a" ∧ ifc.2.input = [("日期", "date")]) ∧
    UnifiedFieldSystem.unify_input "iface_a" [("date", .vStr "20240101")] =
      [("date", .vStr "2024-01-01")] ∧
    ¬ (UnifiedFieldSystem.unify_input "iface_a"
        [("date", .vStr "20240101")]).hasKey "日期" := by
  refine ⟨⟨("iface_a", ⟨[("日期", "date")], []⟩), by simp [InterfaceFieldConverter.sampleMapping],
    rfl, rfl⟩, ?_, ?_⟩
  · with_unfolding_all rfl
  · rintro ⟨v, hv⟩
    rw [show UnifiedFieldSystem.unify_input "iface_a" [("date", .vStr "20240101")] =
      [("date", .vStr "2024-01-01")] by with_unfolding_all rfl] at hv
    simp at hv

/-- C1 amended: `unify_input` re-keys every caller key to its canonical
standard field via the field-equivalence table (the interface's recorded
input table is not consulted), coercing the value with the sniffed
normalizer, so `unify_input(iface, {"date": "20240101"})` yields key `date`
with value `"2024-01-01"`; the re-keying to the interface's native spelling
(`日期`) is performed by `InterfaceFieldConverter.convert_field_to_api`. -/
theorem C1_amended_unify_input_canonical_keys :
    (∀ (api : String) (ps : Record) (k : String),
       (UnifiedFieldSystem.unify_input api ps).hasKey k ↔
         ∃ p ∈ ps, UnifiedFieldSystem.mapToStandardField p.1 = k) ∧
    UnifiedFieldSystem.unify_input "iface_a" [("date", .vStr "20240101")] =
      [("date", .vStr "2024-01-01")] ∧
    InterfaceFieldConverter.convert_field_to_api (some InterfaceFieldConverter.sampleMapping)
      "date" (.vStr "20240101") "iface_a" = ("日期", .vStr "2024-01-01") := by
  refine ⟨fun api ps k => UnifiedFieldSystem.hasKey_unifyRecord ps k, ?_, ?_⟩
  · with_unfolding_all rfl
  · with_unfolding_all rfl

/-- C5 counterexample: the raw name `" qq "` (with surrounding spaces)
matches no canonical name and no alias, exactly or case-insensitively, yet
`get_canonical_name` returns its stripped form `"qq"`, not the name itself —
unresolved names resolve to their stripped selves, not to themselves. -/
theorem C5_counterexample_unresolved_not_identity :
    (∀ ce ∈ FieldMapper.field_equivalents, " qq " ≠ ce.1 ∧ " qq " ∉ ce.2 ∧
       String.mk (PyStr.lowerStr " qq ".toList) ∉
         ce.2.map (fun e => String.mk (PyStr.lowerStr e.toList))) ∧
    FieldMapper.get_canonical_name " qq " ≠ " qq " ∧
    FieldMapper.get_canonical_name " qq " = "qq" :=
  ⟨by decide, by decide, by decide⟩

/-- C5 amended: the resolver is total (a Lean function); the placeholders
`""`, `"-"`, `"nan"` are returned unchanged without any canonical lookup;
and a name whose stripped form matches neither a canonical name nor any
alias (exactly or case-insensitively) resolves to its whitespace-stripped
self — its identity whenever it carries no surrounding whitespace. -/
theorem C5_amended_resolver_identity_fallback :
    (FieldMapper.get_canonical_name "" = "" ∧ FieldMapper.get_canonical_name "-" = "-" ∧
     FieldMapper.get_canonical_name "nan" = "nan") ∧
    (∀ s : String, ¬(s = "nan" ∨ s = "" ∨ s = "-") →
       FieldMapper.canonLookup (String.mk (PyStr.pyStrip s.toList))
         (String.mk (PyStr.lowerStr (PyStr.pyStrip s.toList)))
         FieldMapper.field_equivalents = none →
       FieldMapper.get_canonical_name s = String.mk (PyStr.pyStrip s.toList)) := by
  refine ⟨⟨rfl, rfl, rfl⟩, fun s h1 h2 => ?_⟩
  unfold FieldMapper.get_canonical_name
  rw [if_neg h1]
  dsimp only
  simp only [String.toList] at h2 ⊢
  rw [h2]

/-- Witness for `C5_amended_resolver_identity_fallback` at `" qq "`: not a
placeholder, unmatched in the table, resolved to the stripped `"qq"`. -/
theorem C5_witness :
    ¬(" qq " = "nan" ∨ " qq " = "" ∨ " qq " = "-") ∧
    FieldMapper.canonLookup (String.mk (PyStr.pyStrip " qq ".toList))
      (String.mk (PyStr.lowerStr (PyStr.pyStrip " qq ".toList)))
      FieldMapper.field_equivalents = none ∧
    FieldMapper.get_canonical_name " qq " = String.mk (PyStr.pyStrip " qq ".toList) :=
  ⟨by decide, by decide,
    C5_amended_resolver_identity_fallback.2 " qq " (by decide) (by decide)⟩

set_option maxRecDepth 200000
set_option maxHeartbeats 4000000

theorem fe_canonicals_nodup : (FieldMapper.field_equivalents.map Prod.fst).Nodup := by
  decide

theorem fe_aliases_disjoint :
    FieldMapper.field_equivalents.Pairwise (fun a b => ∀ x ∈ a.2, x ∉ b.2) := by
  decide

theorem fe_canonical_not_alias :
    (∀ a ∈ FieldMapper.field_equivalents, ∀ b ∈ FieldMapper.field_equivalents,
       a.1 ≠ b.1 → a.1 ∉ b.2) := by
  decide

theorem fe_validate_clean :
    Validate.validate_equivalents_consistency FieldMapper.field_equivalents = [] := by
  decide

theorem fe_validate_reports :
    Validate.validate_equivalents_consistency [("a", ["x"]), ("b", ["x", "a"])] =
      [.crossAlias "x" "a" "b", .crossAlias "a" "a" "b"] := by
  decide

/-- C6: alias-table integrity of the configured `field_equivalents`: the
canonical names are pairwise distinct, alias lists of distinct canonicals are
disjoint, no spelling is both a canonical name and an alias of a different
canonical, and the validation pass reports no consistency issue on this
table while it does report (not auto-resolve) the issues of a violating
table. -/
theorem C6_alias_table_integrity :
    (FieldMapper.field_equivalents.map Prod.fst).Nodup ∧
    FieldMapper.field_equivalents.Pairwise (fun a b => ∀ x ∈ a.2, x ∉ b.2) ∧
    (∀ a ∈ FieldMapper.field_equivalents, ∀ b ∈ FieldMapper.field_equivalents,
       a.1 ≠ b.1 → a.1 ∉ b.2) ∧
    Validate.validate_equivalents_consistency FieldMapper.field_equivalents = [] ∧
    Validate.validate_equivalents_consistency [("a", ["x"]), ("b", ["x", "a"])] =
      [.crossAlias "x" "a" "b", .crossAlias "a" "a" "b"] :=
  ⟨fe_canonicals_nodup, fe_aliases_disjoint, fe_canonical_not_alias,
    fe_validate_clean, fe_validate_reports⟩

namespace FieldFormatter

open PyStr

theorem sfxLookup_none {l : List Char} {L : List (String × String)}
    (h : ∀ p ∈ L, p.2.toList.isSuffixOf l = false) : sfxLookup l L = none := by
  induction L with
  | nil => rfl
  | cons hd tl ih =>
    obtain ⟨mkt, suf⟩ := hd
    have h0 := h (mkt, suf) (List.mem_cons_self _ _)
    have h0x : suf.toList.isSuffixOf l = false := h0
    rw [sfxLookup, if_neg (fun hc => by rw [h0x] at hc; simp at hc)]
    exact ih (fun p hp => h p (List.mem_cons_of_mem _ hp))

theorem pfxLookup_none {l : List Char} {L : List (String × String)}
    (h : ∀ p ∈ L, p.2.toList.isPrefixOf l = false) : pfxLookup l L = none := by
  induction L with
  | nil => rfl
  | cons hd tl ih =>
    obtain ⟨mkt, pre⟩ := hd
    have h0 := h (mkt, pre) (List.mem_cons_self _ _)
    have h0x : pre.toList.isPrefixOf l = false := h0
    rw [pfxLookup, if_neg (fun hc => by rw [h0x] at hc; simp at hc)]
    exact ih (fun p hp => h p (List.mem_cons_of_mem _ hp))

end FieldFormatter

/-- C2: with no market suffix or prefix and `default_market = "auto"`,
`normalize_stock_code` infers the market from the leading digit of the first
maximal digit run exactly when that run is 6 digits long: leading `6` gives
`sh`, `0` or `3` give `sz`, `8`, `4` or `9` give `bj`; a run of any other
length yields no market, and a non-`"auto"` default market is taken verbatim
with no inference. -/
theorem C2_market_inference_from_leading_digit :
    ∀ (s : List Char) (d : String) (run : List Char),
      (∀ p ∈ FieldFormatter.sortedSfx, p.2.toList.isSuffixOf s = false) →
      (∀ p ∈ FieldFormatter.sortedPfx, p.2.toList.isPrefixOf s = false) →
      FieldFormatter.firstDigitRun s = some run →
      ((run.length = 6 →
          ((run.head? = some '6' → (FieldFormatter.detectMarket s "auto").2 = "sh") ∧
           ((run.head? = some '0' ∨ run.head? = some '3') →
              (FieldFormatter.detectMarket s "auto").2 = "sz") ∧
           ((run.head? = some '8' ∨ run.head? = some '4' ∨ run.head? = some '9') →
              (FieldFormatter.detectMarket s "auto").2 = "bj"))) ∧
       (run.length ≠ 6 → (FieldFormatter.detectMarket s "auto").2 = "") ∧
       (d ≠ "auto" → FieldFormatter.detectMarket s d = (run, d))) := by
  intro s d run hs hp hr
  have hdm : ∀ dm, FieldFormatter.detectMarket s dm =
      (if dm = "auto" then (run, if run.length = 6 then FieldFormatter.inferFromLead run else "")
       else (run, dm)) := by
    intro dm
    unfold FieldFormatter.detectMarket
    rw [FieldFormatter.sfxLookup_none hs, FieldFormatter.pfxLookup_none hp, hr]
  refine ⟨fun h6 => ⟨fun hh => ?_, fun hh => ?_, fun hh => ?_⟩, fun h6 => ?_, fun hd => ?_⟩
  · rw [hdm "auto", if_pos rfl]
    simp only [if_pos h6]
    unfold FieldFormatter.inferFromLead
    rw [if_pos hh]
  · rw [hdm "auto", if_pos rfl]
    simp only [if_pos h6]
    unfold FieldFormatter.inferFromLead
    have hne : ¬ run.head? = some '6' := by
      rcases hh with hh | hh <;> rw [hh] <;> simp
    rw [if_neg hne, if_pos hh]
  · rw [hdm "auto", if_pos rfl]
    simp only [if_pos h6]
    unfold FieldFormatter.inferFromLead
    have hne6 : ¬ run.head? = some '6' := by
      rcases hh with hh | hh | hh <;> rw [hh] <;> simp
    have hne03 : ¬ (run.head? = some '0' ∨ run.head? = some '3') := by
      rcases hh with hh | hh | hh <;> rw [hh] <;> simp
    rw [if_neg hne6, if_neg hne03, if_pos hh]
  · rw [hdm "auto", if_pos rfl]
    simp only [if_neg h6]
  · rw [hdm d, if_neg hd]

/-- Witness for `C2_market_inference_from_leading_digit` at `"600000"`,
`"12345"`, and default market `"sz"`. -/
theorem C2_witness :
    ((∀ p ∈ FieldFormatter.sortedSfx, p.2.toList.isSuffixOf "600000".toList = false) ∧
     (∀ p ∈ FieldFormatter.sortedPfx, p.2.toList.isPrefixOf "600000".toList = false) ∧
     FieldFormatter.firstDigitRun "600000".toList = some "600000".toList ∧
     (FieldFormatter.detectMarket "600000".toList "auto").2 = "sh") ∧
    (FieldFormatter.firstDigitRun "12345".toList = some "12345".toList ∧
     (FieldFormatter.detectMarket "12345".toList "auto").2 = "") ∧
    FieldFormatter.detectMarket "600000".toList "sz" = ("600000".toList, "sz") :=
  ⟨⟨by decide, by decide, by decide,
     ((C2_market_inference_from_leading_digit "600000".toList "auto" "600000".toList
        (by decide) (by decide) (by decide)).1 (by decide)).1 (by decide)⟩,
   ⟨by decide,
     (C2_market_inference_from_leading_digit "12345".toList "auto" "12345".toList
        (by decide) (by decide) (by decide)).2.1 (by decide)⟩,
   (C2_market_inference_from_leading_digit "600000".toList "sz" "600000".toList
      (by decide) (by decide) (by decide)).2.2 (by decide)⟩

namespace FieldFormatter

open PyStr

theorem digit_not_ws {c : Char} (h : c.isDigit = true) : pyWs c = false := by
  by_contra hc
  simp only [Bool.not_eq_false] at hc
  simp [pyWs] at hc
  rcases hc with rfl | rfl | rfl | rfl | rfl | rfl <;> exact absurd h (by decide)

theorem not_suffix_of_nondigit {t l : List Char} (hd : ∀ c ∈ l, c.isDigit = true)
    {c : Char} (hc : c ∈ t) (hnd : c.isDigit = false) : t.isSuffixOf l = false := by
  by_contra h
  simp only [Bool.not_eq_false] at h
  have hs := List.isSuffixOf_iff_suffix.mp h
  have hm : c ∈ l := hs.subset hc
  rw [hd c hm] at hnd
  simp at hnd

theorem not_prefix_of_nondigit {t l : List Char} (hd : ∀ c ∈ l, c.isDigit = true)
    {c : Char} (hc : c ∈ t) (hnd : c.isDigit = false) : t.isPrefixOf l = false := by
  by_contra h
  simp only [Bool.not_eq_false] at h
  have hs := List.isPrefixOf_iff_prefix.mp h
  have hm : c ∈ l := hs.subset hc
  rw [hd c hm] at hnd
  simp at hnd

theorem all_digit_no_sfx {l : List Char} (hd : ∀ c ∈ l, c.isDigit = true) :
    ∀ p ∈ sortedSfx, p.2.toList.isSuffixOf l = false := by
  intro p hp
  have hex : ∀ q ∈ sortedSfx, ∃ c ∈ q.2.toList, c.isDigit = false := by decide
  obtain ⟨c, hc, hnd⟩ := hex p hp
  exact not_suffix_of_nondigit hd hc hnd

theorem all_digit_no_pfx {l : List Char} (hd : ∀ c ∈ l, c.isDigit = true) :
    ∀ p ∈ sortedPfx, p.2.toList.isPrefixOf l = false := by
  intro p hp
  have hex : ∀ q ∈ sortedPfx, ∃ c ∈ q.2.toList, c.isDigit = false := by decide
  obtain ⟨c, hc, hnd⟩ := hex p hp
  exact not_prefix_of_nondigit hd hc hnd

theorem takeWhile_all {p : Char → Bool} {l : List Char} (h : ∀ c ∈ l, p c = true) :
    l.takeWhile p = l := by
  induction l with
  | nil => rfl
  | cons a t ih =>
    rw [List.takeWhile_cons, if_pos (h a (List.mem_cons_self _ _))]
    rw [ih (fun c hc => h c (List.mem_cons_of_mem _ hc))]

theorem firstDigitRun_all_digits {l : List Char} (h : ∀ c ∈ l, c.isDigit = true)
    (hne : l ≠ []) : firstDigitRun l = some l := by
  unfold firstDigitRun
  rw [dropWhile_eq_self_of_head (fun c hc => by
    cases l with
    | nil => simp at hc
    | cons a t =>
      simp only [List.head?_cons, Option.some_inj] at hc
      subst hc
      simp [h a (List.mem_cons_self _ _)])]
  cases l with
  | nil => exact absurd rfl hne
  | cons a t =>
    show some (a :: t.takeWhile Char.isDigit) = some (a :: t)
    rw [takeWhile_all (fun c hc => h c (List.mem_cons_of_mem _ hc))]

theorem detectMarket_all_digits {l : List Char} (h : ∀ c ∈ l, c.isDigit = true)
    (hne : l ≠ []) : (detectMarket l "auto").1 = l := by
  unfold detectMarket
  rw [sfxLookup_none (all_digit_no_sfx h), pfxLookup_none (all_digit_no_pfx h),
    firstDigitRun_all_digits h hne]
  simp

theorem nsc_some_pure (c : String) :
    normalize_stock_code (some c) .pureNumeric "auto" =
      (if pyStrip c.toList = [] then none
       else if (detectMarket (pyStrip c.toList) "auto").1 = [] then
         some ⟨pyStrip c.toList⟩
       else some ⟨padZ 6 ((detectMarket (pyStrip c.toList) "auto").1.filter Char.isDigit)⟩) :=
  rfl

end FieldFormatter

/-- C9: normalizing to the digits-only target form is idempotent:
re-normalizing the output of `normalize_stock_code(x, PURE_NUMERIC)` returns
it unchanged, for every input. -/
theorem C9_normalize_stock_code_pure_numeric_idempotent :
    ∀ x : Option String,
      FieldFormatter.normalize_stock_code
          (FieldFormatter.normalize_stock_code x .pureNumeric "auto") .pureNumeric "auto" =
        FieldFormatter.normalize_stock_code x .pureNumeric "auto" := by
  intro x
  cases x with
  | none => rfl
  | some c =>
    rw [FieldFormatter.nsc_some_pure c]
    by_cases hl : PyStr.pyStrip c.toList = []
    · rw [if_pos hl]
      rfl
    · rw [if_neg hl]
      by_cases hnp : (FieldFormatter.detectMarket (PyStr.pyStrip c.toList) "auto").1 = []
      · rw [if_pos hnp, FieldFormatter.nsc_some_pure]
        have hst : PyStr.pyStrip (String.mk (PyStr.pyStrip c.toList)).toList =
            PyStr.pyStrip c.toList := by
          simp only [String.toList]
          exact PyStr.pyStrip_idem c.toList
        rw [hst, if_neg hl, if_pos hnp]
      · rw [if_neg hnp, FieldFormatter.nsc_some_pure]
        set np := (FieldFormatter.detectMarket (PyStr.pyStrip c.toList) "auto").1 with hnpdef
        set z := PyStr.padZ 6 (np.filter Char.isDigit) with hzdef
        have hz : ∀ ch ∈ z, ch.isDigit = true :=
          PyStr.padZ_digits (fun ch hch => (List.mem_filter.mp hch).2) 6
        have hlen : 6 ≤ z.length := PyStr.padZ_length_ge 6 _
        have hzne : z ≠ [] := by
          intro he
          rw [he] at hlen
          simp at hlen
        have hst : PyStr.pyStrip (String.mk z).toList = z := by
          simp only [String.toList]
          exact PyStr.pyStrip_eq_self_of_all
            (fun ch hch => FieldFormatter.digit_not_ws (hz ch hch))
        rw [hst, if_neg hzne]
        have hdm : (FieldFormatter.detectMarket z "auto").1 = z :=
          FieldFormatter.detectMarket_all_digits hz hzne
        rw [hdm, if_neg hzne]
        have hfz : z.filter Char.isDigit = z := List.filter_eq_self.mpr hz
        rw [hfz, PyStr.padZ_eq_self_of_le hlen]

namespace DocParse

open PyStr

theorem parseTableRows_filter (headers : List (List Char)) : ∀ block : List (List Char),
    parseTableRows headers block =
      (block.filter (keepRow headers)).map
        (fun r => (headers.zip (rowCells r)).map (fun p => (String.mk p.1, String.mk p.2))) := by
  intro block
  induction block with
  | nil => rfl
  | cons r rest ih =>
    rw [parseTableRows]
    by_cases hb : pyStrip r = [] ∨ UnifiedFieldSystem.containsSeq "|---".toList r = true
    · rw [if_pos hb, ih]
      have hk : keepRow headers r = false := by
        unfold keepRow isBlankLine
        rcases hb with hb | hb
        · simp [hb]
        · rw [show ("|---".toList : List Char) = ['|', '-', '-', '-'] from rfl] at hb
          simp [hb]
      rw [List.filter_cons, if_neg (by simp [hk])]
    · rw [if_neg hb]
      push_neg at hb
      by_cases hc : (rowCells r).length = headers.length
      · rw [if_pos hc, ih]
        have hk : keepRow headers r = true := by
          unfold keepRow isBlankLine
          have hb2 : UnifiedFieldSystem.containsSeq ['|', '-', '-', '-'] r = false := by
            rw [show (['|', '-', '-', '-'] : List Char) = "|---".toList from rfl]
            simpa using hb.2
          simp [hb.1, hb2, hc]
        rw [List.filter_cons, if_pos (by simp [hk])]
        rfl
      · rw [if_neg hc, ih]
        have hk : keepRow headers r = false := by
          unfold keepRow isBlankLine
          have hb2 : UnifiedFieldSystem.containsSeq ['|', '-', '-', '-'] r = false := by
            rw [show (['|', '-', '-', '-'] : List Char) = "|---".toList from rfl]
            simpa using hb.2
          simp [hb.1, hb2, hc]
        rw [List.filter_cons, if_neg (by simp [hk])]

end DocParse

/-- C7: a data row whose pipe-delimited cell count differs from the header's
is dropped while all other well-formed rows are kept (the kept rows are
exactly the filter of the data block), and the sample section — whose
input-parameter table contains a four-cell row under a three-cell header —
still yields the interface's identity fields, the remaining well-formed
input row, and the full output table. -/
theorem C7_malformed_rows_dropped_section_survives :
    (∀ (headers : List (List Char)) (block : List (List Char)),
       DocParse.parseTableRows headers block =
         (block.filter (DocParse.keepRow headers)).map
           (fun r => (headers.zip (DocParse.rowCells r)).map
             (fun p => (String.mk p.1, String.mk p.2)))) ∧
    ("|日期|str|交易日|oops|".toList ∈ DocParse.sampleSection ∧
      (DocParse.rowCells "|日期|str|交易日|oops|".toList).length ≠ 3) ∧
    DocParse.parseInterfaceSection DocParse.sampleSection =
      some { func_name := "iface_demo"
             target_url := "http://example.com/api"
             description := "示例接口"
             input_params := [[("名称", "代码"), ("类型", "str"), ("描述", "股票代码")]]
             output_params := [[("名称", "日期"), ("类型", "object"), ("描述", "交易日")],
                               [("名称", "收盘价"), ("类型", "float64"), ("描述", "收盘价格")]] } :=
  ⟨DocParse.parseTableRows_filter, ⟨by decide, by decide⟩, by decide⟩

namespace FieldFormatter

open PyStr

theorem digitRunsGo_digits (ds : List Char) : ∀ (l run : List Char),
    (∀ c ∈ ds, c.isDigit = true) →
    digitRunsGo (ds ++ l) (some run) = digitRunsGo l (some (ds.reverse ++ run)) := by
  induction ds with
  | nil => intro l run _; simp
  | cons a t ih =>
    intro l run h
    rw [List.cons_append, digitRunsGo, if_pos (h a (List.mem_cons_self _ _))]
    rw [ih l (a :: run) (fun c hc => h c (List.mem_cons_of_mem _ hc))]
    simp

theorem digitRunsGo_start (ds : List Char) (l : List Char) (hne : ds ≠ [])
    (h : ∀ c ∈ ds, c.isDigit = true) :
    digitRunsGo (ds ++ l) none = digitRunsGo l (some ds.reverse) := by
  cases ds with
  | nil => exact absurd rfl hne
  | cons a t =>
    rw [List.cons_append, digitRunsGo, if_pos (h a (List.mem_cons_self _ _))]
    rw [digitRunsGo_digits t l [a] (fun c hc => h c (List.mem_cons_of_mem _ hc))]
    simp

theorem digitRuns_append_sep {A : List Char} (rest : List Char) (sep : Char)
    (hne : A ≠ []) (h : ∀ c ∈ A, c.isDigit = true) (hsep : sep.isDigit = false) :
    digitRuns (A ++ sep :: rest) = A :: digitRuns rest := by
  unfold digitRuns
  rw [digitRunsGo_start A (sep :: rest) hne h, digitRunsGo, if_neg (by simp [hsep])]
  simp

theorem digitRuns_all {A : List Char} (hne : A ≠ []) (h : ∀ c ∈ A, c.isDigit = true) :
    digitRuns A = [A] := by
  unfold digitRuns
  have := digitRunsGo_start A [] hne h
  rw [List.append_nil] at this
  rw [this, digitRunsGo]
  simp

theorem takeWhile_digit_append_sep {A : List Char} (rest : List Char) (sep : Char)
    (h : ∀ c ∈ A, c.isDigit = true) (hsep : sep.isDigit = false) :
    (A ++ sep :: rest).takeWhile Char.isDigit = A := by
  induction A with
  | nil => simp [List.takeWhile_cons, hsep]
  | cons a t ih =>
    rw [List.cons_append, List.takeWhile_cons, if_pos (h a (List.mem_cons_self _ _))]
    rw [ih (fun c hc => h c (List.mem_cons_of_mem _ hc))]

theorem dropWhile_digit_append_sep {A : List Char} (rest : List Char) (sep : Char)
    (h : ∀ c ∈ A, c.isDigit = true) (hsep : sep.isDigit = false) :
    (A ++ sep :: rest).dropWhile Char.isDigit = sep :: rest := by
  induction A with
  | nil => simp [List.dropWhile_cons, hsep]
  | cons a t ih =>
    rw [List.cons_append, List.dropWhile_cons, if_pos (h a (List.mem_cons_self _ _))]
    exact ih (fun c hc => h c (List.mem_cons_of_mem _ hc))

theorem get?_append_len {A B : List Char} {n : Nat} (h : A.length = n) :
    (A ++ B).get? n = B.head? := by
  subst h
  rw [List.get?_append_right (Nat.le_refl _)]
  simp [(List.head?_eq_getElem? B).symm]

theorem ne_of_length_ne {A B : List Char} (h : A.length ≠ B.length) : A ≠ B := by
  intro he; subst he; exact h rfl

end FieldFormatter

namespace PyStr

theorem pyStrip_eq_self_ends {l : List Char}
    (hh : ∀ c, l.head? = some c → pyWs c = false)
    (hl : ∀ c, l.getLast? = some c → pyWs c = false) : pyStrip l = l := by
  unfold pyStrip
  rw [dropWhile_eq_self_of_head hh, dropTrailWs]
  rw [dropWhile_eq_self_of_head (fun c hc => hl c (by rwa [← List.head?_reverse])),
    List.reverse_reverse]

end PyStr

namespace FieldFormatter

open PyStr

theorem pad4_len {y : Nat} (h : y ≤ 9999) : (padZ 4 (numStr y)).length = 4 :=
  padZ_length_of_le (numStr_len_le (by omega) (by omega))

theorem pad2_len {m : Nat} (h : m ≤ 99) : (padZ 2 (numStr m)).length = 2 :=
  padZ_length_of_le (numStr_len_le (by omega) (by omega))

theorem pad_digits (w n : Nat) : ∀ c ∈ padZ w (numStr n), c.isDigit = true :=
  padZ_digits (numStr_digits n) w

theorem pad_ne_nil {w n : Nat} (hw : 1 ≤ w) : padZ w (numStr n) ≠ [] := by
  intro he
  have := padZ_length_ge w (numStr n)
  rw [he] at this
  simp at this
  omega

theorem toNatD_pad (w n : Nat) : toNatD (padZ w (numStr n)) = n := by
  rw [toNatD_padZ, toNatD_numStr]

theorem cnMatch_none {l : List Char} (h : ∀ e, l.get? 4 = some e → e ≠ '年') :
    cnMatch l = none := by
  match l with
  | [] => rfl
  | [_] => rfl
  | [_, _] => rfl
  | [_, _, _] => rfl
  | [_, _, _, _] => rfl
  | a :: b :: c :: d :: e :: rest =>
    simp only [cnMatch]
    rw [if_neg (fun hc => h e rfl hc.2.2.2.2)]

theorem guard_false_of_len {l : List Char} (h : 5 ≤ l.length) :
    ¬(l = [] ∨ lowerStr l = "nan".toList ∨ lowerStr l = "nat".toList ∨
      lowerStr l = "none".toList) := by
  rintro (rfl | he | he | he)
  · simp at h
  all_goals {
    have hlen := congrArg List.length he
    simp [lowerStr] at hlen
    omega
  }

theorem pdModel_none_of_all_digit {l : List Char} (h : ∀ c ∈ l, c.isDigit = true) :
    pdModel l = none := by
  unfold pdModel
  rw [takeWhile_all h]
  by_cases hlen : l.length = 4
  · rw [if_pos hlen]
    have : l.drop 4 = [] := by
      rw [← hlen]
      exact List.drop_length l
    rw [this]
  · rw [if_neg hlen]

theorem takeD12_pad2_sep {m : Nat} (hm : m ≤ 99) (sep : Char) (hsep : sep.isDigit = false)
    (rest : List Char) :
    takeD12 (padZ 2 (numStr m) ++ sep :: rest) = some (m, sep :: rest) := by
  unfold takeD12
  rw [takeWhile_digit_append_sep rest sep (pad_digits 2 m) hsep]
  rw [if_pos (by rw [pad2_len hm]; omega)]
  rw [toNatD_pad]
  congr 1
  rw [Prod.mk.injEq]
  refine ⟨rfl, ?_⟩
  rw [← pad2_len hm]
  exact List.drop_left _ _

theorem takeD12_pad2_nil {d : Nat} (hd : d ≤ 99) :
    takeD12 (padZ 2 (numStr d)) = some (d, []) := by
  unfold takeD12
  rw [takeWhile_all (pad_digits 2 d)]
  rw [if_pos (by rw [pad2_len hd]; omega)]
  rw [toNatD_pad]
  congr 1
  rw [Prod.mk.injEq]
  refine ⟨rfl, ?_⟩
  rw [← pad2_len hd]
  exact List.drop_length _

theorem drop_append_len {A B : List Char} {n : Nat} (h : A.length = n) :
    (A ++ B).drop n = B := by
  subst h
  exact List.drop_left _ _

theorem take_append_len {A B : List Char} {n : Nat} (h : A.length = n) :
    (A ++ B).take n = A := by
  subst h
  exact List.take_left _ _

theorem pdModel_render_date (y m d : Nat) (hy : y ≤ 9999) (hm1 : 1 ≤ m) (hm : m ≤ 12)
    (hd1 : 1 ≤ d) (hd : d ≤ 31) :
    pdModel (padZ 4 (numStr y) ++ '-' :: (padZ 2 (numStr m) ++ '-' :: padZ 2 (numStr d))) =
      some (y, m, d, 0, 0, 0) := by
  unfold pdModel
  rw [takeWhile_digit_append_sep _ '-' (pad_digits 4 y) (by decide)]
  rw [if_pos (pad4_len hy)]
  rw [drop_append_len (pad4_len hy)]
  dsimp only
  rw [if_pos (Or.inl rfl)]
  rw [takeD12_pad2_sep (by omega) '-' (by decide)]
  rw [Option.some_bind]
  dsimp only
  rw [if_pos rfl]
  rw [takeD12_pad2_nil (by omega)]
  rw [Option.some_bind]
  dsimp only
  rw [if_pos ⟨hm1, hm, hd1, hd⟩]
  rw [toNatD_pad]

theorem parseHMS_render (h mi sec : Nat) (hh : h ≤ 99) (hmi : mi ≤ 99) (hs : sec ≤ 99) :
    parseHMS (padZ 2 (numStr h) ++ ':' :: (padZ 2 (numStr mi) ++ ':' :: padZ 2 (numStr sec))) =
      some (h, mi, sec) := by
  unfold parseHMS
  rw [takeD12_pad2_sep hh ':' (by decide), Option.some_bind]
  dsimp only
  rw [if_pos rfl]
  rw [takeD12_pad2_sep hmi ':' (by decide), Option.some_bind]
  dsimp only
  rw [if_pos rfl]
  rw [takeD12_pad2_nil hs, Option.some_bind]
  dsimp only
  rw [if_pos rfl]

theorem pdModel_render_hms (y m d h mi sec : Nat) (hy : y ≤ 9999) (hm1 : 1 ≤ m)
    (hm : m ≤ 12) (hd1 : 1 ≤ d) (hd : d ≤ 31) (hh99 : h ≤ 99) (hmi99 : mi ≤ 99)
    (hs99 : sec ≤ 99) :
    pdModel (padZ 4 (numStr y) ++ '-' :: (padZ 2 (numStr m) ++ '-' ::
        (padZ 2 (numStr d) ++ ' ' :: (padZ 2 (numStr h) ++ ':' ::
          (padZ 2 (numStr mi) ++ ':' :: padZ 2 (numStr sec)))))) =
      (if h ≤ 23 ∧ mi ≤ 59 ∧ sec ≤ 59 then some (y, m, d, h, mi, sec) else none) := by
  unfold pdModel
  rw [takeWhile_digit_append_sep _ '-' (pad_digits 4 y) (by decide)]
  rw [if_pos (pad4_len hy)]
  rw [drop_append_len (pad4_len hy)]
  dsimp only
  rw [if_pos (Or.inl rfl)]
  rw [takeD12_pad2_sep (by omega) '-' (by decide), Option.some_bind]
  dsimp only
  rw [if_pos rfl]
  rw [takeD12_pad2_sep (by omega) ' ' (by decide), Option.some_bind]
  dsimp only
  rw [if_pos rfl]
  rw [parseHMS_render h mi sec hh99 hmi99 hs99, Option.some_bind]
  dsimp only
  by_cases hcond : h ≤ 23 ∧ mi ≤ 59 ∧ sec ≤ 59
  · rw [if_pos ⟨⟨hm1, hm, hd1, hd⟩, hcond.1, hcond.2.1, hcond.2.2⟩, if_pos hcond]
    rw [toNatD_pad]
  · rw [if_neg (fun hc => hcond ⟨hc.2.1, hc.2.2.1, hc.2.2.2⟩), if_neg hcond]

theorem head?_append_ne_nil {A B : List Char} (h : A ≠ []) :
    (A ++ B).head? = A.head? := by
  cases A with
  | nil => exact absurd rfl h
  | cons a t => rfl

theorem head_digit_ne_cn {R : List Char} {e : Char}
    (hdig : ∀ c ∈ R, c.isDigit = true) (he : R.head? = some e) : e ≠ '年' := by
  intro hc
  subst hc
  exact absurd (hdig _ (List.mem_of_mem_head? he)) (by decide)

theorem take_len_self {A : List Char} {n : Nat} (h : A.length = n) : A.take n = A := by
  subst h
  exact List.take_length _

theorem reparse_ymd8 (y m d : Nat) (hy1 : 1 ≤ y) (hy : y ≤ 9999) (hm1 : 1 ≤ m)
    (hm : m ≤ 12) (hd1 : 1 ≤ d) (hd : d ≤ 31) :
    ndAfterStrip pdModel (padZ 4 (numStr y) ++ padZ 2 (numStr m) ++ padZ 2 (numStr d))
        .yyyymmdd =
      some (padZ 4 (numStr y) ++ padZ 2 (numStr m) ++ padZ 2 (numStr d)) := by
  have hdig : ∀ c ∈ padZ 4 (numStr y) ++ padZ 2 (numStr m) ++ padZ 2 (numStr d),
      c.isDigit = true := by
    intro c hc
    simp only [List.mem_append] at hc
    rcases hc with (hc | hc) | hc
    · exact pad_digits 4 y c hc
    · exact pad_digits 2 m c hc
    · exact pad_digits 2 d c hc
  have hlen : (padZ 4 (numStr y) ++ padZ 2 (numStr m) ++ padZ 2 (numStr d)).length = 8 := by
    simp [pad4_len hy, pad2_len (show m ≤ 99 by omega), pad2_len (show d ≤ 99 by omega)]
  have hne : padZ 4 (numStr y) ++ padZ 2 (numStr m) ++ padZ 2 (numStr d) ≠ [] :=
    ne_of_length_ne (by rw [hlen]; simp)
  unfold ndAfterStrip
  rw [if_neg (guard_false_of_len (by omega))]
  rw [cnMatch_none (fun e he => by
    rw [List.append_assoc, get?_append_len (pad4_len hy),
      head?_append_ne_nil (pad_ne_nil (by omega))] at he
    exact head_digit_ne_cn (pad_digits 2 m) he)]
  dsimp only
  rw [pdModel_none_of_all_digit hdig]
  dsimp only
  rw [digitRuns_all hne hdig]
  rw [if_neg (by simp)]
  have hflat : ([padZ 4 (numStr y) ++ padZ 2 (numStr m) ++ padZ 2 (numStr d)] :
      List (List Char)).flatten =
      padZ 4 (numStr y) ++ padZ 2 (numStr m) ++ padZ 2 (numStr d) := by simp
  rw [hflat, hlen]
  rw [if_pos (by omega), if_neg (by omega)]
  have htake4 : (padZ 4 (numStr y) ++ padZ 2 (numStr m) ++ padZ 2 (numStr d)).take 4 =
      padZ 4 (numStr y) := by
    rw [List.append_assoc]
    exact take_append_len (pad4_len hy)
  have hdrop4 : (padZ 4 (numStr y) ++ padZ 2 (numStr m) ++ padZ 2 (numStr d)).drop 4 =
      padZ 2 (numStr m) ++ padZ 2 (numStr d) := by
    rw [List.append_assoc]
    exact drop_append_len (pad4_len hy)
  have hdrop6 : (padZ 4 (numStr y) ++ padZ 2 (numStr m) ++ padZ 2 (numStr d)).drop 6 =
      padZ 2 (numStr d) :=
    drop_append_len (by simp [pad4_len hy, pad2_len (show m ≤ 99 by omega)])
  rw [htake4, hdrop4, hdrop6]
  rw [take_append_len (pad2_len (show m ≤ 99 by omega))]
  rw [take_len_self (pad2_len (show d ≤ 99 by omega))]
  rw [toNatD_pad, toNatD_pad, toNatD_pad]
  unfold finishD
  dsimp only
  rw [if_pos (⟨hm1, hm⟩ : 1 ≤ m ∧ m ≤ 12), if_pos (⟨hd1, hd⟩ : 1 ≤ d ∧ d ≤ 31),
    if_neg (show ¬ y = 0 by omega)]

theorem reparse_iso10 (y m d : Nat) (hy1 : 1 ≤ y) (hy : y ≤ 9999) (hm1 : 1 ≤ m)
    (hm : m ≤ 12) (hd1 : 1 ≤ d) (hd : d ≤ 31) :
    ndAfterStrip pdModel
        (padZ 4 (numStr y) ++ '-' :: padZ 2 (numStr m) ++ '-' :: padZ 2 (numStr d))
        .yyyy_mm_dd =
      some (padZ 4 (numStr y) ++ '-' :: padZ 2 (numStr m) ++ '-' :: padZ 2 (numStr d)) := by
  have hshape : padZ 4 (numStr y) ++ '-' :: padZ 2 (numStr m) ++ '-' :: padZ 2 (numStr d) =
      padZ 4 (numStr y) ++ '-' :: (padZ 2 (numStr m) ++ '-' :: padZ 2 (numStr d)) := by
    simp [List.append_assoc]
  have hlen : (padZ 4 (numStr y) ++ '-' :: padZ 2 (numStr m) ++
      '-' :: padZ 2 (numStr d)).length = 10 := by
    simp [pad4_len hy, pad2_len (show m ≤ 99 by omega), pad2_len (show d ≤ 99 by omega)]
  unfold ndAfterStrip
  rw [if_neg (guard_false_of_len (by omega))]
  rw [cnMatch_none (fun e he => by
    rw [hshape, get?_append_len (pad4_len hy)] at he
    simp at he
    rw [← he]
    decide)]
  dsimp only
  rw [hshape, pdModel_render_date y m d hy hm1 hm hd1 hd]
  dsimp only
  unfold finishD
  dsimp only
  rw [if_pos (⟨hm1, hm⟩ : 1 ≤ m ∧ m ≤ 12), if_pos (⟨hd1, hd⟩ : 1 ≤ d ∧ d ≤ 31),
    if_neg (show ¬ y = 0 by omega)]
  rw [hshape]

theorem reparse_ym6 (y m : Nat) (hy1 : 1 ≤ y) (hy : y ≤ 9999) (hm1 : 1 ≤ m)
    (hm : m ≤ 12) :
    ndAfterStrip pdModel (padZ 4 (numStr y) ++ padZ 2 (numStr m)) .yyyymm =
      some (padZ 4 (numStr y) ++ padZ 2 (numStr m)) := by
  have hdig : ∀ c ∈ padZ 4 (numStr y) ++ padZ 2 (numStr m), c.isDigit = true := by
    intro c hc
    simp only [List.mem_append] at hc
    rcases hc with hc | hc
    · exact pad_digits 4 y c hc
    · exact pad_digits 2 m c hc
  have hlen : (padZ 4 (numStr y) ++ padZ 2 (numStr m)).length = 6 := by
    simp [pad4_len hy, pad2_len (show m ≤ 99 by omega)]
  have hne : padZ 4 (numStr y) ++ padZ 2 (numStr m) ≠ [] :=
    ne_of_length_ne (by rw [hlen]; simp)
  unfold ndAfterStrip
  rw [if_neg (guard_false_of_len (by omega))]
  rw [cnMatch_none (fun e he => by
    rw [get?_append_len (pad4_len hy)] at he
    exact head_digit_ne_cn (pad_digits 2 m) he)]
  dsimp only
  rw [pdModel_none_of_all_digit hdig]
  dsimp only
  rw [digitRuns_all hne hdig]
  rw [if_neg (by simp)]
  have hflat : ([padZ 4 (numStr y) ++ padZ 2 (numStr m)] : List (List Char)).flatten =
      padZ 4 (numStr y) ++ padZ 2 (numStr m) := by simp
  rw [hflat, hlen]
  rw [if_neg (by omega), if_pos rfl]
  rw [take_append_len (pad4_len hy), drop_append_len (pad4_len hy)]
  rw [toNatD_pad, toNatD_pad]
  unfold finishD
  dsimp only
  rw [if_pos (⟨hm1, hm⟩ : 1 ≤ m ∧ m ≤ 12), if_neg (show ¬ y = 0 by omega)]

theorem slices14 {A B C D E F : List Char} (hA : A.length = 4) (hB : B.length = 2)
    (hC : C.length = 2) (hD : D.length = 2) (hE : E.length = 2) (hF : F.length = 2) :
    (A ++ (B ++ (C ++ (D ++ (E ++ F))))).take 4 = A ∧
    ((A ++ (B ++ (C ++ (D ++ (E ++ F))))).drop 4).take 2 = B ∧
    ((A ++ (B ++ (C ++ (D ++ (E ++ F))))).drop 6).take 2 = C ∧
    ((A ++ (B ++ (C ++ (D ++ (E ++ F))))).drop 8).take 2 = D ∧
    ((A ++ (B ++ (C ++ (D ++ (E ++ F))))).drop 10).take 2 = E ∧
    ((A ++ (B ++ (C ++ (D ++ (E ++ F))))).drop 12).take 2 = F := by
  have h4 : (A ++ (B ++ (C ++ (D ++ (E ++ F))))).drop 4 = B ++ (C ++ (D ++ (E ++ F))) :=
    drop_append_len hA
  have h6 : (A ++ (B ++ (C ++ (D ++ (E ++ F))))).drop 6 = C ++ (D ++ (E ++ F)) := by
    rw [show (6 : Nat) = 4 + 2 from rfl, ← List.drop_drop, h4]
    exact drop_append_len hB
  have h8 : (A ++ (B ++ (C ++ (D ++ (E ++ F))))).drop 8 = D ++ (E ++ F) := by
    rw [show (8 : Nat) = 6 + 2 from rfl, ← List.drop_drop, h6]
    exact drop_append_len hC
  have h10 : (A ++ (B ++ (C ++ (D ++ (E ++ F))))).drop 10 = E ++ F := by
    rw [show (10 : Nat) = 8 + 2 from rfl, ← List.drop_drop, h8]
    exact drop_append_len hD
  have h12 : (A ++ (B ++ (C ++ (D ++ (E ++ F))))).drop 12 = F := by
    rw [show (12 : Nat) = 10 + 2 from rfl, ← List.drop_drop, h10]
    exact drop_append_len hE
  refine ⟨take_append_len hA, ?_, ?_, ?_, ?_, ?_⟩
  · rw [h4]; exact take_append_len hB
  · rw [h6]; exact take_append_len hC
  · rw [h8]; exact take_append_len hD
  · rw [h10]; exact take_append_len hE
  · rw [h12]; exact take_len_self hF

theorem reparse_hms19 (y m d h mi sec : Nat) (hy1 : 1 ≤ y) (hy : y ≤ 9999) (hm1 : 1 ≤ m)
    (hm : m ≤ 12) (hd1 : 1 ≤ d) (hd : d ≤ 31) (hh99 : h ≤ 99) (hmi99 : mi ≤ 99)
    (hs99 : sec ≤ 99) :
    ndAfterStrip pdModel
        (padZ 4 (numStr y) ++ '-' :: (padZ 2 (numStr m) ++ '-' ::
          (padZ 2 (numStr d) ++ ' ' :: (padZ 2 (numStr h) ++ ':' ::
            (padZ 2 (numStr mi) ++ ':' :: padZ 2 (numStr sec))))))
        .yyyy_mm_dd_hh_mm_ss =
      some (padZ 4 (numStr y) ++ '-' :: (padZ 2 (numStr m) ++ '-' ::
        (padZ 2 (numStr d) ++ ' ' :: (padZ 2 (numStr h) ++ ':' ::
          (padZ 2 (numStr mi) ++ ':' :: padZ 2 (numStr sec)))))) := by
  have hlen : (padZ 4 (numStr y) ++ '-' :: (padZ 2 (numStr m) ++ '-' ::
      (padZ 2 (numStr d) ++ ' ' :: (padZ 2 (numStr h) ++ ':' ::
        (padZ 2 (numStr mi) ++ ':' :: padZ 2 (numStr sec)))))).length = 19 := by
    simp [pad4_len hy, pad2_len (show m ≤ 99 by omega), pad2_len (show d ≤ 99 by omega),
      pad2_len hh99, pad2_len hmi99, pad2_len hs99]
  unfold ndAfterStrip
  rw [if_neg (guard_false_of_len (by omega))]
  rw [cnMatch_none (fun e he => by
    rw [get?_append_len (pad4_len hy)] at he
    simp at he
    rw [← he]
    decide)]
  dsimp only
  rw [pdModel_render_hms y m d h mi sec hy hm1 hm hd1 hd hh99 hmi99 hs99]
  by_cases hok : h ≤ 23 ∧ mi ≤ 59 ∧ sec ≤ 59
  · rw [if_pos hok]
    dsimp only
    unfold finishD
    dsimp only
    rw [if_pos (⟨hm1, hm⟩ : 1 ≤ m ∧ m ≤ 12), if_pos (⟨hd1, hd⟩ : 1 ≤ d ∧ d ≤ 31),
      if_neg (show ¬ y = 0 by omega)]
    simp [List.append_assoc]
  · rw [if_neg hok]
    dsimp only
    rw [digitRuns_append_sep _ '-' (pad_ne_nil (by omega)) (pad_digits 4 y) (by decide)]
    rw [digitRuns_append_sep _ '-' (pad_ne_nil (by omega)) (pad_digits 2 m) (by decide)]
    rw [digitRuns_append_sep _ ' ' (pad_ne_nil (by omega)) (pad_digits 2 d) (by decide)]
    rw [digitRuns_append_sep _ ':' (pad_ne_nil (by omega)) (pad_digits 2 h) (by decide)]
    rw [digitRuns_append_sep _ ':' (pad_ne_nil (by omega)) (pad_digits 2 mi) (by decide)]
    rw [digitRuns_all (pad_ne_nil (by omega)) (pad_digits 2 sec)]
    rw [if_neg (by simp)]
    have hflat : ([padZ 4 (numStr y), padZ 2 (numStr m), padZ 2 (numStr d),
        padZ 2 (numStr h), padZ 2 (numStr mi), padZ 2 (numStr sec)] :
        List (List Char)).flatten =
        padZ 4 (numStr y) ++ (padZ 2 (numStr m) ++ (padZ 2 (numStr d) ++
          (padZ 2 (numStr h) ++ (padZ 2 (numStr mi) ++ padZ 2 (numStr sec))))) := by
      simp
    rw [hflat]
    have hclen : (padZ 4 (numStr y) ++ (padZ 2 (numStr m) ++ (padZ 2 (numStr d) ++
        (padZ 2 (numStr h) ++ (padZ 2 (numStr mi) ++ padZ 2 (numStr sec)))))).length = 14 := by
      simp [pad4_len hy, pad2_len (show m ≤ 99 by omega), pad2_len (show d ≤ 99 by omega),
        pad2_len hh99, pad2_len hmi99, pad2_len hs99]
    rw [hclen]
    rw [if_pos (by omega), if_pos (by omega)]
    obtain ⟨t0, t4, t6, t8, t10, t12⟩ := slices14 (pad4_len hy)
      (pad2_len (show m ≤ 99 by omega)) (pad2_len (show d ≤ 99 by omega))
      (pad2_len hh99) (pad2_len hmi99) (pad2_len hs99)
    rw [t0, t4, t6, t8, t10, t12]
    rw [toNatD_pad, toNatD_pad, toNatD_pad, toNatD_pad, toNatD_pad, toNatD_pad]
    unfold finishD
    dsimp only
    rw [if_pos (⟨hm1, hm⟩ : 1 ≤ m ∧ m ≤ 12), if_pos (⟨hd1, hd⟩ : 1 ≤ d ∧ d ≤ 31),
      if_neg (show ¬ y = 0 by omega)]
    simp [List.append_assoc]

theorem clampV_bounds (hi : Nat) (hhi : 1 ≤ hi) (v : Option Nat) :
    1 ≤ clampV hi v ∧ clampV hi v ≤ hi := by
  rcases v with _ | v0
  · exact ⟨Nat.le_refl 1, hhi⟩
  · simp only [clampV]
    by_cases h : 1 ≤ v0 ∧ v0 ≤ hi
    · rw [if_pos h]; exact ⟨h.1, h.2⟩
    · rw [if_neg h]; exact ⟨Nat.le_refl 1, hhi⟩

theorem finishD_clamp (f : DateFormat) (ds : List Char) (y : Nat)
    (mo dy hr mi sec : Option Nat) :
    finishD f ds y mo dy hr mi sec =
      finishD f ds y (some (clampV 12 mo)) (some (clampV 31 dy)) hr mi sec := by
  rcases mo with _ | m0 <;> rcases dy with _ | d0 <;>
    simp only [finishD, clampV] <;> split_ifs <;> first | rfl | omega

theorem finishD_zero (f : DateFormat) (ds : List Char) (mo dy hr mi sec : Option Nat) :
    finishD f ds 0 mo dy hr mi sec = ds := by
  simp [finishD]

theorem finishD_some_render (f : DateFormat) (ds : List Char) (y M D hv : Nat)
    (mi sec : Option Nat) (hy0 : ¬ y = 0) (hM1 : 1 ≤ M) (hM : M ≤ 12) (hD1 : 1 ≤ D)
    (hD : D ≤ 31) :
    finishD f ds y (some M) (some D) (some hv) mi sec =
      renderF f y M D hv (mi.getD 0) (sec.getD 0) := by
  cases f <;>
    (unfold finishD renderF
     dsimp only
     rw [if_neg hy0, if_pos (⟨hM1, hM⟩ : 1 ≤ M ∧ M ≤ 12)]
     try rw [if_pos (⟨hD1, hD⟩ : 1 ≤ D ∧ D ≤ 31)]
     try simp [List.append_assoc])

theorem finishD_none_render (f : DateFormat) (ds : List Char) (y M D : Nat)
    (mi sec : Option Nat) (hy0 : ¬ y = 0) (hM1 : 1 ≤ M) (hM : M ≤ 12) (hD1 : 1 ≤ D)
    (hD : D ≤ 31) :
    finishD f ds y (some M) (some D) none mi sec = renderF f y M D 0 0 0 := by
  cases f <;>
    (unfold finishD renderF
     dsimp only
     rw [if_neg hy0, if_pos (⟨hM1, hM⟩ : 1 ≤ M ∧ M ≤ 12)]
     try rw [if_pos (⟨hD1, hD⟩ : 1 ≤ D ∧ D ≤ 31)]
     try simp [show padZ 2 (numStr 0) = ['0', '0'] from rfl, List.append_assoc])

theorem finishD_renderF (f : DateFormat) (ds : List Char) (y : Nat)
    (mo dy hr mi sec : Option Nat) (hy0 : ¬ y = 0)
    (hhr : ∀ a, hr = some a → a ≤ 99) (hmi99 : ∀ a, mi = some a → a ≤ 99)
    (hse99 : ∀ a, sec = some a → a ≤ 99) :
    ∃ M D H Mi Se, 1 ≤ M ∧ M ≤ 12 ∧ 1 ≤ D ∧ D ≤ 31 ∧ H ≤ 99 ∧ Mi ≤ 99 ∧ Se ≤ 99 ∧
      finishD f ds y mo dy hr mi sec = renderF f y M D H Mi Se := by
  obtain ⟨hM1, hM⟩ := clampV_bounds 12 (by omega) mo
  obtain ⟨hD1, hD⟩ := clampV_bounds 31 (by omega) dy
  rw [finishD_clamp]
  rcases hr with _ | hv
  · exact ⟨_, _, 0, 0, 0, hM1, hM, hD1, hD, by omega, by omega, by omega,
      finishD_none_render f ds y _ _ mi sec hy0 hM1 hM hD1 hD⟩
  · refine ⟨_, _, hv, mi.getD 0, sec.getD 0, hM1, hM, hD1, hD, hhr hv rfl, ?_, ?_,
      finishD_some_render f ds y _ _ hv mi sec hy0 hM1 hM hD1 hD⟩
    · rcases mi with _ | a
      · decide
      · simpa using hmi99 a rfl
    · rcases sec with _ | a
      · decide
      · simpa using hse99 a rfl

theorem toNatD_take_lt {l : List Char} (hd : ∀ c ∈ l, c.isDigit = true) (n : Nat) :
    toNatD (l.take n) < 10 ^ n :=
  lt_of_lt_of_le (toNatD_lt (fun c hc => hd c (List.mem_of_mem_take hc)))
    (Nat.pow_le_pow_right (by omega)
      (by rw [List.length_take]; exact min_le_left _ _))

theorem toNatD_take2_le99 {l : List Char} (hd : ∀ c ∈ l, c.isDigit = true) :
    toNatD (l.take 2) ≤ 99 := by
  have := toNatD_take_lt hd 2
  norm_num at this
  omega

theorem toNatD_take4_le9999 {l : List Char} (hd : ∀ c ∈ l, c.isDigit = true) :
    toNatD (l.take 4) ≤ 9999 := by
  have := toNatD_take_lt hd 4
  norm_num at this
  omega

theorem cnMatch_y_le {s : List Char} {v : Nat × Nat × Nat} (h : cnMatch s = some v) :
    v.1 ≤ 9999 := by
  rcases s with _ | ⟨a, _ | ⟨b, _ | ⟨c, _ | ⟨d, _ | ⟨e, rest⟩⟩⟩⟩⟩
  · rw [show cnMatch [] = none from rfl] at h; exact Option.noConfusion h
  · rw [show cnMatch [a] = none from rfl] at h; exact Option.noConfusion h
  · rw [show cnMatch [a, b] = none from rfl] at h; exact Option.noConfusion h
  · rw [show cnMatch [a, b, c] = none from rfl] at h; exact Option.noConfusion h
  · rw [show cnMatch [a, b, c, d] = none from rfl] at h; exact Option.noConfusion h
  · unfold cnMatch at h
    dsimp only at h
    split at h
    · rename_i hcond
      obtain ⟨ha, hb, hc2, hd2, _⟩ := hcond
      rcases hm : cnTail '月' rest with _ | mr
      · rw [hm] at h; exact Option.noConfusion h
      · rw [hm, Option.some_bind] at h
        rcases hdd : cnTail '日' mr.2 with _ | dr
        · rw [hdd] at h; exact Option.noConfusion h
        · rw [hdd] at h
          have hv := Option.some.inj h
          have hlt : toNatD [a, b, c, d] < 10 ^ ([a, b, c, d] : List Char).length :=
            toNatD_lt (by
              intro c' hc'
              simp only [List.mem_cons, List.not_mem_nil, or_false] at hc'
              rcases hc' with rfl | rfl | rfl | rfl
              · exact ha
              · exact hb
              · exact hc2
              · exact hd2)
          rw [← hv]
          simp only [List.length_cons, List.length_nil] at hlt
          norm_num at hlt
          dsimp only
          omega
    · exact Option.noConfusion h

theorem takeD12_le {l : List Char} {p : Nat × List Char} (h : takeD12 l = some p) :
    p.1 ≤ 99 := by
  unfold takeD12 at h
  dsimp only at h
  split at h
  · rename_i hc
    have hv := Option.some.inj h
    have hlt : toNatD (l.takeWhile Char.isDigit) < 10 ^ (l.takeWhile Char.isDigit).length :=
      toNatD_lt (fun c hc' => List.mem_takeWhile_imp hc')
    have hle : (10 : Nat) ^ (l.takeWhile Char.isDigit).length ≤ 10 ^ 2 :=
      Nat.pow_le_pow_right (by omega) hc.2
    rw [← hv]
    dsimp only
    norm_num at hle
    omega
  · exact Option.noConfusion h

theorem pdModel_bounds {l : List Char} {v : Nat × Nat × Nat × Nat × Nat × Nat}
    (h : pdModel l = some v) :
    v.1 ≤ 9999 ∧ v.2.2.2.1 ≤ 99 ∧ v.2.2.2.2.1 ≤ 99 ∧ v.2.2.2.2.2 ≤ 99 := by
  unfold pdModel at h
  dsimp only at h
  split at h
  · rename_i hy4
    have hy : toNatD (l.takeWhile Char.isDigit) ≤ 9999 := by
      have hlt : toNatD (l.takeWhile Char.isDigit) <
          10 ^ (l.takeWhile Char.isDigit).length :=
        toNatD_lt (fun c hc' => List.mem_takeWhile_imp hc')
      rw [hy4] at hlt
      norm_num at hlt
      omega
    split at h
    · rename_i sep rest hdrop
      split at h
      · rcases htk : takeD12 rest with _ | mr
        · rw [htk] at h; exact Option.noConfusion h
        · rw [htk, Option.some_bind] at h
          split at h
          · rename_i sep2 r2 hmr2
            split at h
            · rcases htk2 : takeD12 r2 with _ | dr
              · rw [htk2] at h; exact Option.noConfusion h
              · rw [htk2, Option.some_bind] at h
                split at h
                · split at h
                  · have hv := Option.some.inj h
                    rw [← hv]
                    dsimp only
                    exact ⟨hy, by omega, by omega, by omega⟩
                  · exact Option.noConfusion h
                · rename_i c3 r3 hdr2
                  split at h
                  · rcases hp : parseHMS r3 with _ | hms
                    · rw [hp] at h; exact Option.noConfusion h
                    · rw [hp, Option.some_bind] at h
                      split at h
                      · rename_i hok
                        have hv := Option.some.inj h
                        rw [← hv]
                        dsimp only
                        refine ⟨hy, ?_, ?_, ?_⟩ <;> omega
                      · exact Option.noConfusion h
                  · exact Option.noConfusion h
            · exact Option.noConfusion h
          · exact Option.noConfusion h
      · exact Option.noConfusion h
    · exact Option.noConfusion h
  · exact Option.noConfusion h

theorem digitRunsGo_flatten_digits (l : List Char) : ∀ (run : Option (List Char)),
    (∀ r, run = some r → ∀ c ∈ r, c.isDigit = true) →
    ∀ c ∈ (digitRunsGo l run).flatten, c.isDigit = true := by
  induction l with
  | nil =>
    intro run hrun c hc
    rcases run with _ | r
    · simp [digitRunsGo] at hc
    · rw [digitRunsGo] at hc
      simp only [List.flatten, List.append_nil, List.mem_reverse] at hc
      exact hrun r rfl c hc
  | cons a t ih =>
    intro run hrun c hc
    rcases run with _ | r
    · rw [digitRunsGo] at hc
      by_cases ha : a.isDigit = true
      · rw [if_pos ha] at hc
        exact ih (some [a]) (fun r' hr' c' hc' => by
          injection hr' with hr''
          subst hr''
          simp only [List.mem_singleton] at hc'
          subst hc'
          exact ha) c hc
      · rw [if_neg (by simpa using ha)] at hc
        exact ih none (fun r' hr' => Option.noConfusion hr') c hc
    · rw [digitRunsGo] at hc
      by_cases ha : a.isDigit = true
      · rw [if_pos ha] at hc
        exact ih (some (a :: r)) (fun r' hr' c' hc' => by
          injection hr' with hr''
          subst hr''
          rcases List.mem_cons.mp hc' with rfl | hmem
          · exact ha
          · exact hrun r rfl c' hmem) c hc
      · rw [if_neg (by simpa using ha)] at hc
        simp only [List.flatten_cons, List.mem_append, List.mem_reverse] at hc
        rcases hc with hm | hm
        · exact hrun r rfl c hm
        · exact ih none (fun r' hr' => Option.noConfusion hr') c hm

theorem digitRuns_flatten_digits (l : List Char) :
    ∀ c ∈ (digitRuns l).flatten, c.isDigit = true :=
  digitRunsGo_flatten_digits l none (fun r hr => Option.noConfusion hr)

theorem append_ne_nil_right {A B : List Char} (h : B ≠ []) : A ++ B ≠ [] := by
  intro habs
  rcases A with _ | ⟨x, t⟩
  · exact h habs
  · simp at habs

theorem getLast?_cons_ne_nil {a : Char} {B : List Char} (h : B ≠ []) :
    (a :: B).getLast? = B.getLast? := by
  rw [show a :: B = [a] ++ B from rfl]
  exact List.getLast?_append_of_ne_nil _ h

theorem append_ne_nil_left {A B : List Char} (h : A ≠ []) : A ++ B ≠ [] := by
  intro habs
  rcases A with _ | ⟨x, t⟩
  · exact h rfl
  · simp at habs

theorem strip_renderF (f : DateFormat) (y M D H Mi Se : Nat) :
    pyStrip (renderF f y M D H Mi Se) = renderF f y M D H Mi Se := by
  apply pyStrip_eq_self_ends
  · intro c hc
    cases f
    case yyyymmdd =>
      unfold renderF at hc
      dsimp only at hc
      rw [head?_append_ne_nil (append_ne_nil_left (pad_ne_nil (by omega))),
        head?_append_ne_nil (pad_ne_nil (by omega))] at hc
      exact digit_not_ws (pad_digits 4 y _ (List.mem_of_mem_head? hc))
    case yyyy_mm_dd =>
      unfold renderF at hc
      dsimp only at hc
      rw [head?_append_ne_nil (append_ne_nil_left (pad_ne_nil (by omega))),
        head?_append_ne_nil (pad_ne_nil (by omega))] at hc
      exact digit_not_ws (pad_digits 4 y _ (List.mem_of_mem_head? hc))
    case yyyy_mm_dd_hh_mm_ss =>
      unfold renderF at hc
      dsimp only at hc
      rw [head?_append_ne_nil (pad_ne_nil (by omega))] at hc
      exact digit_not_ws (pad_digits 4 y _ (List.mem_of_mem_head? hc))
    case yyyymm =>
      unfold renderF at hc
      dsimp only at hc
      rw [head?_append_ne_nil (pad_ne_nil (by omega))] at hc
      exact digit_not_ws (pad_digits 4 y _ (List.mem_of_mem_head? hc))
  · intro c hc
    cases f
    case yyyymmdd =>
      unfold renderF at hc
      dsimp only at hc
      rw [List.getLast?_append_of_ne_nil _ (pad_ne_nil (by omega))] at hc
      exact digit_not_ws (pad_digits 2 D _ (List.mem_of_mem_getLast? hc))
    case yyyy_mm_dd =>
      unfold renderF at hc
      dsimp only at hc
      rw [List.getLast?_append_of_ne_nil _ (List.cons_ne_nil _ _),
        getLast?_cons_ne_nil (pad_ne_nil (by omega))] at hc
      exact digit_not_ws (pad_digits 2 D _ (List.mem_of_mem_getLast? hc))
    case yyyy_mm_dd_hh_mm_ss =>
      unfold renderF at hc
      dsimp only at hc
      rw [List.getLast?_append_of_ne_nil _ (List.cons_ne_nil _ _),
        getLast?_cons_ne_nil (append_ne_nil_right (List.cons_ne_nil _ _)),
        List.getLast?_append_of_ne_nil _ (List.cons_ne_nil _ _),
        getLast?_cons_ne_nil (append_ne_nil_right (List.cons_ne_nil _ _)),
        List.getLast?_append_of_ne_nil _ (List.cons_ne_nil _ _),
        getLast?_cons_ne_nil (append_ne_nil_right (List.cons_ne_nil _ _)),
        List.getLast?_append_of_ne_nil _ (List.cons_ne_nil _ _),
        getLast?_cons_ne_nil (append_ne_nil_right (List.cons_ne_nil _ _)),
        List.getLast?_append_of_ne_nil _ (List.cons_ne_nil _ _),
        getLast?_cons_ne_nil (pad_ne_nil (by omega))] at hc
      exact digit_not_ws (pad_digits 2 Se _ (List.mem_of_mem_getLast? hc))
    case yyyymm =>
      unfold renderF at hc
      dsimp only at hc
      rw [List.getLast?_append_of_ne_nil _ (pad_ne_nil (by omega))] at hc
      exact digit_not_ws (pad_digits 2 M _ (List.mem_of_mem_getLast? hc))

theorem reparse_renderF (f : DateFormat) (y M D H Mi Se : Nat) (hy1 : 1 ≤ y)
    (hy : y ≤ 9999) (hM1 : 1 ≤ M) (hM : M ≤ 12) (hD1 : 1 ≤ D) (hD : D ≤ 31)
    (hH : H ≤ 99) (hMi : Mi ≤ 99) (hSe : Se ≤ 99) :
    ndAfterStrip pdModel (renderF f y M D H Mi Se) f =
      some (renderF f y M D H Mi Se) := by
  cases f
  · exact reparse_ymd8 y M D hy1 hy hM1 hM hD1 hD
  · exact reparse_iso10 y M D hy1 hy hM1 hM hD1 hD
  · exact reparse_hms19 y M D H Mi Se hy1 hy hM1 hM hD1 hD hH hMi hSe
  · exact reparse_ym6 y M hy1 hy hM1 hM

theorem ndAfterStrip_out {f : DateFormat} {s r : List Char}
    (h : ndAfterStrip pdModel s f = some r) :
    r = s ∨ ∃ y M D H Mi Se, 1 ≤ y ∧ y ≤ 9999 ∧ 1 ≤ M ∧ M ≤ 12 ∧ 1 ≤ D ∧ D ≤ 31 ∧
      H ≤ 99 ∧ Mi ≤ 99 ∧ Se ≤ 99 ∧ r = renderF f y M D H Mi Se := by
  unfold ndAfterStrip at h
  split at h
  · exact Option.noConfusion h
  · split at h
    · rename_i ymd hcn
      have hr := Option.some.inj h
      by_cases hy0 : ymd.1 = 0
      · left
        rw [← hr, hy0, finishD_zero]
      · right
        obtain ⟨M, D, H, Mi, Se, hM1, hM, hD1, hD, hH, hMi, hSe, heq⟩ :=
          finishD_renderF f s ymd.1 (some ymd.2.1) (some ymd.2.2) none none none hy0
            (fun a ha => Option.noConfusion ha) (fun a ha => Option.noConfusion ha)
            (fun a ha => Option.noConfusion ha)
        exact ⟨ymd.1, M, D, H, Mi, Se, by omega, cnMatch_y_le hcn, hM1, hM, hD1, hD,
          hH, hMi, hSe, by rw [← hr, heq]⟩
    · rename_i hcn
      split at h
      · rename_i v hpd
        have hb := pdModel_bounds hpd
        have hr := Option.some.inj h
        by_cases hy0 : v.1 = 0
        · left
          rw [← hr, hy0, finishD_zero]
        · right
          obtain ⟨M, D, H, Mi, Se, hM1, hM, hD1, hD, hH, hMi, hSe, heq⟩ :=
            finishD_renderF f s v.1 (some v.2.1) (some v.2.2.1) (some v.2.2.2.1)
              (some v.2.2.2.2.1) (some v.2.2.2.2.2) hy0
              (fun a ha => (Option.some.inj ha) ▸ hb.2.1)
              (fun a ha => (Option.some.inj ha) ▸ hb.2.2.1)
              (fun a ha => (Option.some.inj ha) ▸ hb.2.2.2)
          exact ⟨v.1, M, D, H, Mi, Se, by omega, hb.1, hM1, hM, hD1, hD, hH, hMi, hSe,
            by rw [← hr, heq]⟩
      · rename_i hpd
        dsimp only at h
        have hdig : ∀ c ∈ (digitRuns s).flatten, c.isDigit = true :=
          digitRuns_flatten_digits s
        split at h
        · left
          exact (Option.some.inj h).symm
        · rename_i hrne
          split at h
          · rename_i h8
            split at h
            · rename_i h14
              have hr := Option.some.inj h
              by_cases hy0 : toNatD ((digitRuns s).flatten.take 4) = 0
              · left; rw [← hr, hy0, finishD_zero]
              · right
                obtain ⟨M, D, H, Mi, Se, hM1, hM, hD1, hD, hH, hMi, hSe, heq⟩ :=
                  finishD_renderF f s (toNatD ((digitRuns s).flatten.take 4))
                    (some (toNatD (((digitRuns s).flatten.drop 4).take 2)))
                    (some (toNatD (((digitRuns s).flatten.drop 6).take 2)))
                    (some (toNatD (((digitRuns s).flatten.drop 8).take 2)))
                    (some (toNatD (((digitRuns s).flatten.drop 10).take 2)))
                    (some (toNatD (((digitRuns s).flatten.drop 12).take 2))) hy0
                    (fun a ha => (Option.some.inj ha) ▸ toNatD_take2_le99
                      (fun c hc => hdig c (List.mem_of_mem_drop hc)))
                    (fun a ha => (Option.some.inj ha) ▸ toNatD_take2_le99
                      (fun c hc => hdig c (List.mem_of_mem_drop hc)))
                    (fun a ha => (Option.some.inj ha) ▸ toNatD_take2_le99
                      (fun c hc => hdig c (List.mem_of_mem_drop hc)))
                exact ⟨_, M, D, H, Mi, Se, by omega, toNatD_take4_le9999 hdig, hM1, hM,
                  hD1, hD, hH, hMi, hSe, by rw [← hr, heq]⟩
            · rename_i h14
              have hr := Option.some.inj h
              by_cases hy0 : toNatD ((digitRuns s).flatten.take 4) = 0
              · left; rw [← hr, hy0, finishD_zero]
              · right
                obtain ⟨M, D, H, Mi, Se, hM1, hM, hD1, hD, hH, hMi, hSe, heq⟩ :=
                  finishD_renderF f s (toNatD ((digitRuns s).flatten.take 4))
                    (some (toNatD (((digitRuns s).flatten.drop 4).take 2)))
                    (some (toNatD (((digitRuns s).flatten.drop 6).take 2)))
                    none none none hy0
                    (fun a ha => Option.noConfusion ha)
                    (fun a ha => Option.noConfusion ha)
                    (fun a ha => Option.noConfusion ha)
                exact ⟨_, M, D, H, Mi, Se, by omega, toNatD_take4_le9999 hdig, hM1, hM,
                  hD1, hD, hH, hMi, hSe, by rw [← hr, heq]⟩
          · rename_i h8
            split at h
            · rename_i h6
              have hr := Option.some.inj h
              by_cases hy0 : toNatD ((digitRuns s).flatten.take 4) = 0
              · left; rw [← hr, hy0, finishD_zero]
              · right
                obtain ⟨M, D, H, Mi, Se, hM1, hM, hD1, hD, hH, hMi, hSe, heq⟩ :=
                  finishD_renderF f s (toNatD ((digitRuns s).flatten.take 4))
                    (some (toNatD ((digitRuns s).flatten.drop 4))) none none none none hy0
                    (fun a ha => Option.noConfusion ha)
                    (fun a ha => Option.noConfusion ha)
                    (fun a ha => Option.noConfusion ha)
                exact ⟨_, M, D, H, Mi, Se, by omega, toNatD_take4_le9999 hdig, hM1, hM,
                  hD1, hD, hH, hMi, hSe, by rw [← hr, heq]⟩
            · rename_i h6
              split at h
              · rename_i h4
                have hr := Option.some.inj h
                by_cases hy0 : toNatD ((digitRuns s).flatten) = 0
                · left; rw [← hr, hy0, finishD_zero]
                · right
                  have hy9999 : toNatD ((digitRuns s).flatten) ≤ 9999 := by
                    have := toNatD_lt hdig
                    rw [h4] at this
                    norm_num at this
                    omega
                  obtain ⟨M, D, H, Mi, Se, hM1, hM, hD1, hD, hH, hMi, hSe, heq⟩ :=
                    finishD_renderF f s (toNatD ((digitRuns s).flatten))
                      (some 1) none none none none hy0
                      (fun a ha => Option.noConfusion ha)
                      (fun a ha => Option.noConfusion ha)
                      (fun a ha => Option.noConfusion ha)
                  exact ⟨_, M, D, H, Mi, Se, by omega, hy9999, hM1, hM,
                    hD1, hD, hH, hMi, hSe, by rw [← hr, heq]⟩
              · left
                exact (Option.some.inj h).symm

theorem ndAfterStrip_idem {f : DateFormat} {s r : List Char} (hs : pyStrip s = s)
    (h : ndAfterStrip pdModel s f = some r) :
    ndAfterStrip pdModel (pyStrip r) f = some r := by
  rcases ndAfterStrip_out h with hr |
    ⟨y, M, D, H, Mi, Se, hy1, hy, hM1, hM, hD1, hD, hH, hMi, hSe, hr⟩
  · subst hr
    rw [hs]
    exact h
  · subst hr
    rw [strip_renderF]
    exact reparse_renderF f y M D H Mi Se hy1 hy hM1 hM hD1 hD hH hMi hSe

theorem normalize_date_idem (s : String) (f : DateFormat) :
    normalize_date (normalize_date (some s) f) f = normalize_date (some s) f := by
  rcases hi : ndAfterStrip pdModel (pyStrip s.toList) f with _ | r
  · have h1 : normalize_date (some s) f = none := by
      unfold normalize_date ndGen
      dsimp only
      rw [hi]
      rfl
    rw [h1]
    rfl
  · have h1 : normalize_date (some s) f = some ⟨r⟩ := by
      unfold normalize_date ndGen
      dsimp only
      rw [hi]
      rfl
    rw [h1]
    unfold normalize_date ndGen
    dsimp only
    rw [show pyStrip (String.toList ⟨r⟩) = pyStrip r from rfl]
    rw [ndAfterStrip_idem (pyStrip_idem s.toList) hi]
    rfl

/-- **C4.** `normalize_date` is idempotent for the same target format: for
every input `x` and format `f`, `normalize_date (normalize_date x f) f =
normalize_date x f`. The literal `<year>年<month>月<day>日` pattern is tried
before the generic date-library parse: whenever the Chinese pattern matches
the (stripped) input, the result does not depend on the generic parser at
all. Moreover the specific equalities hold:
`normalize_date "2024年1月1日" YYYY-MM-DD = "2024-01-01"`,
`normalize_date "20240101" YYYYMMDD = "20240101"`, and
`normalize_date "2024-01-01 12:34:56" "YYYY-MM-DD HH:MM:SS" =
"2024-01-01 12:34:56"`. -/
theorem C4_normalize_date_idempotent_cn_precedence :
    (∀ (x : Option String) (f : DateFormat),
        normalize_date (normalize_date x f) f = normalize_date x f) ∧
    (∀ (pd1 pd2 : PdParse) (ds : List Char) (f : DateFormat),
        (cnMatch ds).isSome = true → ndAfterStrip pd1 ds f = ndAfterStrip pd2 ds f) ∧
    normalize_date (some "2024年1月1日") .yyyy_mm_dd = some "2024-01-01" ∧
    normalize_date (some "20240101") .yyyymmdd = some "20240101" ∧
    normalize_date (some "2024-01-01 12:34:56") .yyyy_mm_dd_hh_mm_ss =
      some "2024-01-01 12:34:56" := by
  refine ⟨?_, ?_, ?_, ?_, ?_⟩
  · intro x f
    rcases x with _ | s
    · rfl
    · exact normalize_date_idem s f
  · intro pd1 pd2 ds f hcn
    unfold ndAfterStrip
    rcases hsome : cnMatch ds with _ | v
    · rw [hsome] at hcn
      exact absurd hcn (by simp)
    · rfl
  · decide
  · decide
  · decide

theorem C4_witness :
    ((cnMatch "2024年1月1日".toList).isSome = true) ∧
    ndAfterStrip (fun _ => none) "2024年1月1日".toList DateFormat.yyyy_mm_dd =
      ndAfterStrip pdModel "2024年1月1日".toList DateFormat.yyyy_mm_dd :=
  ⟨by decide, C4_normalize_date_idempotent_cn_precedence.2.1 (fun _ => none) pdModel
    "2024年1月1日".toList DateFormat.yyyy_mm_dd (by decide)⟩
